import Mathlib

/-!
# smarthomeix/pkg : MQTT broker wrapper, validation errors, HTTP responses

A shallow embedding of `mqtt/broker/broker.go`, `validator/validator.go` and
`http/response/response.go`, with the properties of the connect loop, the
subscription registry, the on-connect replay and the JSON error responses.

Conventions of the embedding.

* A Go `map[string]V` is a list of entries with pairwise distinct keys
  (`GoMap`).  The order in which a `range` statement visits a map is chosen by
  the Go runtime; every `range` statement of the source takes that choice as a
  `RangeOrder` argument, which may be any rearrangement of the entries.
* The paho client is an external collaborator.  Its answers are an oracle
  (`Transport`) that may depend on everything that happened before the call.
* The mutex, the transport and the logger are observed through an event trace
  carried by the client state, oldest event first.
* `time.Duration` is a signed 64-bit count of nanoseconds (`wrapInt64`).
* A Go `string` is a sequence of bytes (`GoString`); a string literal stands
  for its UTF-8 encoding.  The topics of the broker, which are only compared
  for equality, are `String`s.
* A value of a Go interface type is an `Option`: `none` is `nil`.  A map value
  of the validator is an `Option` as well: `none` is the nil map.
-/

namespace Pkg

/-! ## Go strings -/

/-- A Go `byte`. -/
abbrev Byte := Fin 256

/-- The byte with the given value, modulo 256. -/
def byte (n : Nat) : Byte := ⟨n % 256, Nat.mod_lt n (by decide)⟩

/-- A Go `string`: any sequence of bytes, well-formed UTF-8 or not. -/
structure GoString where
  bytes : List Byte
deriving DecidableEq, Repr

/-- The UTF-8 encoding of a code point. -/
def encodeRune (c : Nat) : List Byte :=
  if c < 0x80 then [byte c]
  else if c < 0x800 then [byte (0xC0 + c / 64), byte (0x80 + c % 64)]
  else if c < 0x10000 then
    [byte (0xE0 + c / 4096), byte (0x80 + c / 64 % 64), byte (0x80 + c % 64)]
  else
    [byte (0xF0 + c / 262144), byte (0x80 + c / 4096 % 64), byte (0x80 + c / 64 % 64),
      byte (0x80 + c % 64)]

/-- The UTF-8 encoding of a sequence of characters. -/
def encodeChars : List Char → List Byte
  | [] => []
  | c :: rest => encodeRune c.toNat ++ encodeChars rest

/-- The Go string that holds a text: its UTF-8 encoding. -/
def GoString.ofString (s : String) : GoString := ⟨encodeChars s.data⟩

instance : Coe String GoString := ⟨GoString.ofString⟩

/-- Whether the value of a byte lies between `lo` and `hi`. -/
def inRange (lo hi : Nat) (b : Byte) : Bool := decide (lo ≤ b.val) && decide (b.val ≤ hi)

/-- The function `utf8.DecodeRuneInString` at the head of a byte sequence: the
code point and its width when the head is a well-formed encoding; `none`
stands for the result `(RuneError, 1)` of a malformed head (and for the empty
sequence). -/
def decodeRune : List Byte → Option (Nat × Nat)
  | [] => none
  | b0 :: rest =>
    if b0.val < 0x80 then some (b0.val, 1)
    else if inRange 0xC2 0xDF b0 then
      match rest with
      | b1 :: _ =>
        if inRange 0x80 0xBF b1 then some ((b0.val - 0xC0) * 64 + (b1.val - 0x80), 2)
        else none
      | _ => none
    else if inRange 0xE0 0xEF b0 then
      match rest with
      | b1 :: b2 :: _ =>
        if inRange (if b0.val = 0xE0 then 0xA0 else 0x80)
              (if b0.val = 0xED then 0x9F else 0xBF) b1 && inRange 0x80 0xBF b2 then
          some ((b0.val - 0xE0) * 4096 + (b1.val - 0x80) * 64 + (b2.val - 0x80), 3)
        else none
      | _ => none
    else if inRange 0xF0 0xF4 b0 then
      match rest with
      | b1 :: b2 :: b3 :: _ =>
        if inRange (if b0.val = 0xF0 then 0x90 else 0x80)
              (if b0.val = 0xF4 then 0x8F else 0xBF) b1 && inRange 0x80 0xBF b2
            && inRange 0x80 0xBF b3 then
          some ((b0.val - 0xF0) * 262144 + (b1.val - 0x80) * 4096 + (b2.val - 0x80) * 64
            + (b3.val - 0x80), 4)
        else none
      | _ => none
    else none

/-- The text `encoding/json` writes for a Go string: every well-formed encoding
gives its character and every other byte gives U+FFFD.  `skip` counts the
bytes of the current encoding that are still to be passed over. -/
def decodeChars : Nat → List Byte → List Char
  | _, [] => []
  | skip + 1, _ :: rest => decodeChars skip rest
  | 0, b :: rest =>
    match decodeRune (b :: rest) with
    | some (c, n) => Char.ofNat c :: decodeChars (n - 1) rest
    | none => Char.ofNat 0xFFFD :: decodeChars 0 rest

/-- The text of a Go string, invalid bytes replaced by U+FFFD. -/
def GoString.toText (s : GoString) : String := ⟨decodeChars 0 s.bytes⟩

/-- The function `utf8.ValidString` on the rest of a byte sequence, `skip`
bytes into the current encoding. -/
def validBytes : Nat → List Byte → Bool
  | 0, [] => true
  | _ + 1, [] => false
  | skip + 1, _ :: rest => validBytes skip rest
  | 0, b :: rest =>
    match decodeRune (b :: rest) with
    | some (_, n) => validBytes (n - 1) rest
    | none => false

/-- The function `utf8.ValidString`. -/
def GoString.valid (s : GoString) : Bool := validBytes 0 s.bytes

/-! ## Go maps -/

/-- Association list update used for `m[k] = v`: overwrite the entry of `k` in
place when there is one, append a new entry otherwise. -/
def assignList {K V : Type} [DecidableEq K] (k : K) (v : V) : List (K × V) → List (K × V)
  | [] => [(k, v)]
  | e :: rest => if e.1 = k then (k, v) :: rest else e :: assignList k v rest

/-- A Go map that is not nil, with values of type `V` and keys of type `K`
(strings unless said otherwise): entries with pairwise distinct keys. -/
structure GoMap (V : Type) (K : Type := String) where
  entries : List (K × V)
  nodup : (entries.map Prod.fst).Nodup
deriving DecidableEq

namespace GoMap

variable {K V : Type} [DecidableEq K]

/-- The result of `make(map[K]V)`. -/
def empty : GoMap V K := ⟨[], List.nodup_nil⟩

/-- The statement `m[k] = v`. -/
def assign (m : GoMap V K) (k : K) (v : V) : GoMap V K :=
  ⟨assignList k v m.entries, by
    have key : ∀ l : List (K × V), (assignList k v l).map Prod.fst =
        if k ∈ l.map Prod.fst then l.map Prod.fst else l.map Prod.fst ++ [k] := by
      intro l
      induction l with
      | nil => simp [assignList]
      | cons e rest ih =>
        by_cases h : e.1 = k
        · simp [assignList, h]
        · have h' : ¬ k = e.1 := fun h'' => h h''.symm
          simp only [assignList, h, if_false, List.map_cons, ih, List.mem_cons, h', false_or]
          split <;> simp
    rw [key]
    split
    · exact m.nodup
    · rename_i hk
      exact List.Nodup.append m.nodup (List.nodup_singleton k) (by simpa using hk)⟩

/-- The keys of the map. -/
def keys (m : GoMap V K) : List K := m.entries.map Prod.fst

/-- The expression `m[k]` with its presence flag. -/
def get? (m : GoMap V K) (k : K) : Option V :=
  (m.entries.find? (fun e => e.1 == k)).map Prod.snd

end GoMap

/-- The order in which one `range` statement visits the entries of a map: any
rearrangement of the entries, chosen by the runtime. -/
structure RangeOrder (V : Type) (K : Type := String) where
  visit : GoMap V K → List (K × V)
  perm : ∀ m, (visit m).Perm m.entries

/-- The runtime that visits entries in insertion order. -/
def RangeOrder.inOrder (V : Type) (K : Type := String) : RangeOrder V K :=
  ⟨fun m => m.entries, fun _ => List.Perm.refl _⟩

/-- The runtime that visits entries in reverse insertion order. -/
def RangeOrder.reversed (V : Type) (K : Type := String) : RangeOrder V K :=
  ⟨fun m => m.entries.reverse, fun m => List.reverse_perm m.entries⟩

/-! ## mqtt/broker/broker.go -/

namespace Broker

/-- A `time.Duration`: nanoseconds. -/
abbrev Duration := Int

/-- Two's-complement wrap-around of a 64-bit signed integer operation. -/
def wrapInt64 (x : Int) : Int := (x + 2 ^ 63) % 2 ^ 64 - 2 ^ 63

/-- The constant `time.Second`. -/
def Second : Duration := 1000000000

/-- A paho `mqtt.Token` once it is complete: the result of `Wait()` and of
`Error()` (`none` is `nil`). -/
structure Token where
  wait : Bool
  error : Option String
deriving DecidableEq, Repr

/-- What the wrapper does to the outside world.  `H` is the type of message
handlers. -/
inductive Event (H : Type) where
  | lock
  | unlock
  | store (topic : String) (handler : H)
  | connect
  | sleep (d : Duration)
  | subscribe (topic : String) (qos : Byte) (handler : H)
  | disconnect (quiesce : Nat)
  | logConnectFailed (err : Option String) (retryIn : Duration)
  | logSubscribeFailed (topic : String) (err : String)
  | logSubscribed (topic : String)
  | logDisconnected
deriving DecidableEq, Repr

/-- The paho client as seen by the wrapper: the token each call returns, given
the events so far. -/
structure Transport (H : Type) where
  Connect : List (Event H) → Token
  Subscribe : List (Event H) → String → Byte → H → Token

/-- The `Client` struct: the registry `subs` (the map allocated at line 20,
which the on-connect closure shares) and the events so far.  The mutex `mu`
and the embedded `mqtt.Client` are observed through the trace. -/
structure Client (H : Type) where
  subs : GoMap H
  trace : List (Event H)

/-- The initial value of `baseDelay` (line 52). -/
def initialDelay : Duration := Second

/-- The value of `maxDelay` (line 53). -/
def maxDelay : Duration := wrapInt64 (30 * Second)

/-- The update of `baseDelay` at the end of a failed round (lines 63-65). -/
def nextDelay (baseDelay : Duration) : Duration :=
  if baseDelay < maxDelay then wrapInt64 (baseDelay * 2) else baseDelay

/-- Whether a connect token ends the loop (line 57). -/
def connected (token : Token) : Bool := token.wait && token.error.isNone

/-- The blocking connection loop of `NewBroker` (lines 55-66).  The loop has no
bound in the source; `fuel` bounds the number of rounds and `none` means the
bound was reached before a connect succeeded. -/
def connectLoop {H : Type} (tr : Transport H) :
    Nat → Duration → List (Event H) → Option (List (Event H))
  | 0, _, _ => none
  | fuel + 1, baseDelay, trace =>
    let token := tr.Connect trace
    let trace := trace ++ [Event.connect]
    if connected token then
      some trace
    else
      connectLoop tr fuel (nextDelay baseDelay)
        (trace ++ [Event.logConnectFailed token.error baseDelay, Event.sleep baseDelay])

/-- The log line chosen by the `if`/`else` at lines 41-45 and 87-91: the
failure line when `token.Wait() && token.Error() != nil`, the success line
otherwise. -/
def outcomeEvent {H : Type} (token : Token) (topic : String) : Event H :=
  match token.wait, token.error with
  | true, some err => Event.logSubscribeFailed topic err
  | _, _ => Event.logSubscribed topic

/-- The body shared by lines 41-45 and lines 87-91: issue `Subscribe`, wait for
the token and log the outcome. -/
def subscribeAndLog {H : Type} (tr : Transport H) (c : Client H)
    (topic : String) (qos : Byte) (handler : H) : Client H :=
  let token := tr.Subscribe c.trace topic qos handler
  { c with trace := c.trace ++ [Event.subscribe topic qos handler, outcomeEvent token topic] }

/-- Lines 82-84: the critical section of `SubscribeWithTracking`. -/
def record {H : Type} (tc : Client H) (topic : String) (callback : H) : Client H :=
  { subs := tc.subs.assign topic callback
    trace := tc.trace ++ [Event.lock, Event.store topic callback, Event.unlock] }

/-- The method `Client.SubscribeWithTracking` (lines 80-92).  It has no result
value. -/
def SubscribeWithTracking {H : Type} (tr : Transport H) (tc : Client H)
    (topic : String) (qos : Byte) (callback : H) : Client H :=
  subscribeAndLog tr (record tc topic callback) topic qos callback

/-- Lines 29-37 of the on-connect handler: under the lock, copy the registry
into the fresh map `toSubscribe`. -/
def snapshot {H : Type} (ord : RangeOrder H) (c : Client H) : Client H × GoMap H :=
  let toSubscribe := (ord.visit c.subs).foldl (fun m e => m.assign e.1 e.2) GoMap.empty
  ({ c with trace := c.trace ++ [Event.lock, Event.unlock] }, toSubscribe)

/-- Lines 40-46 of the on-connect handler: subscribe to every entry of
`toSubscribe`, with QoS 0. -/
def replay {H : Type} (ord : RangeOrder H) (tr : Transport H) (c : Client H)
    (toSubscribe : GoMap H) : Client H :=
  (ord.visit toSubscribe).foldl (fun c e => subscribeAndLog tr c e.1 0 e.2) c

/-- The on-connect handler installed by `NewBroker` (lines 28-47).  `ord₁` is
the order of the copying loop, `ord₂` the order of the subscribing loop. -/
def onConnectHandler {H : Type} (ord₁ ord₂ : RangeOrder H) (tr : Transport H)
    (c : Client H) : Client H :=
  let s := snapshot ord₁ c
  replay ord₂ tr s.1 s.2

/-- The method `Client.Disconnect` (lines 95-99). -/
def Disconnect {H : Type} (tc : Client H) : Client H :=
  { tc with trace := tc.trace ++ [Event.disconnect 250, Event.logDisconnected] }

/-- The durations of the `sleep` events of a trace, in order. -/
def sleeps {H : Type} : List (Event H) → List Duration
  | [] => []
  | Event.sleep d :: rest => d :: sleeps rest
  | _ :: rest => sleeps rest

/-- The transport `Subscribe` calls of a trace, in order. -/
def subscribes {H : Type} : List (Event H) → List (String × Byte × H)
  | [] => []
  | Event.subscribe t q h :: rest => (t, q, h) :: subscribes rest
  | _ :: rest => subscribes rest

/-- The events an operation added to the trace. -/
def emitted {H : Type} (before after : Client H) : List (Event H) :=
  after.trace.drop before.trace.length

/-- The transport `Subscribe` calls an operation issued. -/
def issued {H : Type} (before after : Client H) : List (String × Byte × H) :=
  subscribes (emitted before after)

/-- The number of `Connect` calls of a trace. -/
def connects {H : Type} : List (Event H) → Nat
  | [] => 0
  | Event.connect :: rest => connects rest + 1
  | _ :: rest => connects rest

/-- Whether the mutex is held after the events of a trace, given whether it
was held before. -/
def lockHeld {H : Type} : Bool → List (Event H) → Bool
  | held, [] => held
  | _, Event.lock :: rest => lockHeld true rest
  | _, Event.unlock :: rest => lockHeld false rest
  | held, _ :: rest => lockHeld held rest

/-- Checks that every transport call of a trace (`Connect`, `Subscribe`,
`Disconnect`) is issued at a moment when the mutex is not held. -/
def callsOutsideLock {H : Type} : Bool → List (Event H) → Bool
  | _, [] => true
  | _, Event.lock :: rest => callsOutsideLock true rest
  | _, Event.unlock :: rest => callsOutsideLock false rest
  | held, Event.subscribe _ _ _ :: rest => !held && callsOutsideLock held rest
  | held, Event.connect :: rest => !held && callsOutsideLock held rest
  | held, Event.disconnect _ :: rest => !held && callsOutsideLock held rest
  | held, _ :: rest => callsOutsideLock held rest

/-- Critical sections (lines 82-84) run by another goroutine, one after the
other. -/
def recordAll {H : Type} (c : Client H) (rs : List (String × H)) : Client H :=
  rs.foldl (fun c r => record c r.1 r.2) c

/-- The subscribing loop of the on-connect handler (lines 40-46) while another
goroutine registers topics: `env i` lists the records that goroutine completes
after the handler released the mutex and before the handler's `i`-th
`Subscribe` call (for the last index, after the last call). -/
def replayAmid {H : Type} (tr : Transport H) (env : Nat → List (String × H)) :
    List (String × H) → Nat → Client H → Client H
  | [], i, c => recordAll c (env i)
  | e :: rest, i, c =>
    replayAmid tr env rest (i + 1) (subscribeAndLog tr (recordAll c (env i)) e.1 0 e.2)

/-- The on-connect handler (lines 28-47) run concurrently with the records of
`env`. -/
def onConnectHandlerAmid {H : Type} (ord₁ ord₂ : RangeOrder H) (tr : Transport H)
    (env : Nat → List (String × H)) (c : Client H) : Client H :=
  let s := snapshot ord₁ c
  replayAmid tr env (ord₂.visit s.2) 0 s.1

/-- The delay of the `n`-th sleep as the loop computes it: `nextDelay` applied
`n` times to the initial delay. -/
def loopDelay : Nat → Duration
  | 0 => initialDelay
  | n + 1 => nextDelay (loopDelay n)

/-- The delay of the `n`-th sleep in closed form. -/
def delay (n : Nat) : Duration :=
  if n ≤ 5 then 2 ^ n * Second else 32 * Second

/-- A client as `NewBroker` returns it (line 69): the registry is the empty map
of line 20; `trace` is what happened during construction. -/
def newClient {H : Type} (trace : List (Event H)) : Client H :=
  { subs := GoMap.empty, trace := trace }

/-- A run of `SubscribeWithTracking` calls, one after the other. -/
def subscribeAll {H : Type} (tr : Transport H) (c : Client H)
    (calls : List (String × Byte × H)) : Client H :=
  calls.foldl (fun c x => SubscribeWithTracking tr c x.1 x.2.1 x.2.2) c

/-- A transport whose first `n` connects fail and whose later connects succeed;
its subscribes succeed. -/
def failingTransport (n : Nat) : Transport Unit where
  Connect := fun trace => if connects trace < n then ⟨true, some "refused"⟩ else ⟨true, none⟩
  Subscribe := fun _ _ _ _ => ⟨true, none⟩

end Broker

/-! ## encoding/json, as far as the package uses it -/

namespace Json

/-- A JSON document of the kinds the package writes: `null`, or an object
whose member names and values are strings, in the order of the text.  The
strings of a document are texts (sequences of characters). -/
inductive JsonDoc where
  | null
  | object (members : List (String × String))
deriving DecidableEq, Repr

/-- The order in which `json.Marshal` sorts map keys: byte by byte. -/
def bytesLE : List Byte → List Byte → Bool
  | [], _ => true
  | _ :: _, [] => false
  | a :: as, b :: bs => decide (a.val < b.val) || (decide (a.val = b.val) && bytesLE as bs)

/-- Insert an entry before the first entry whose key is not smaller. -/
def insertEntry (e : GoString × GoString) :
    List (GoString × GoString) → List (GoString × GoString)
  | [] => [e]
  | x :: rest =>
    if bytesLE e.1.bytes x.1.bytes then e :: x :: rest else x :: insertEntry e rest

/-- Sort entries by key. -/
def sortEntries : List (GoString × GoString) → List (GoString × GoString)
  | [] => []
  | e :: rest => insertEntry e (sortEntries rest)

/-- The call `json.Marshal(m)` for a `map[string]string`: `null` for the nil
map; otherwise an object with one member per entry, in the order of the sorted
keys, every key and value written as text with invalid bytes replaced by
U+FFFD.  It does not fail. -/
def marshalStringMap : Option (GoMap GoString GoString) → Except String JsonDoc
  | none => Except.ok JsonDoc.null
  | some m =>
    Except.ok (JsonDoc.object ((sortEntries m.entries).map (fun e => (e.1.toText, e.2.toText))))

/-- The call `json.Unmarshal(data, &result)` for `result` a nil
`map[string]string`: `null` leaves the map nil; for an object a map is made
and the members are stored one after the other, so a repeated name keeps its
last value. -/
def unmarshalStringMap : JsonDoc → Except String (Option (GoMap GoString GoString))
  | JsonDoc.null => Except.ok none
  | JsonDoc.object members =>
    Except.ok (some (members.foldl
      (fun m e => m.assign (GoString.ofString e.1) (GoString.ofString e.2)) GoMap.empty))

/-- The value of a member of a document (of the last one with that name). -/
def member? (d : JsonDoc) (key : String) : Option String :=
  match d with
  | JsonDoc.null => none
  | JsonDoc.object members =>
    ((members.reverse).find? (fun e => e.1 == key)).map Prod.snd

end Json

/-! ## validator/validator.go -/

namespace Validator

/-- A run-time panic. -/
inductive Panic where
  | nilDereference
  | nilMapAssignment
deriving DecidableEq, Repr

/-- A dynamic type that implements the Go interface `error`, with its `Error()`
method.  A value of the interface type `error` is an `Option E`: `none` is
`nil`. -/
class IsError (E : Type) where
  Error : E → GoString

/-- The struct `FieldError`. -/
structure FieldError where
  Message : GoString
deriving DecidableEq, Repr

/-- The method `FieldError.Error`. -/
def FieldError.Error (fe : FieldError) : GoString := fe.Message

instance : IsError FieldError := ⟨FieldError.Error⟩

/-- The function `NewFieldError`; its result is a non-nil `error`. -/
def NewFieldError (message : GoString) : Option FieldError := some { Message := message }

/-- The type `ValidationErrors`, a `map[string]error`: `none` is the nil map;
an entry may hold the nil error.  `E` is the dynamic type of the errors. -/
abbrev ValidationErrors (E : Type) := Option (GoMap (Option E) GoString)

/-- The function `New`. -/
def New {E : Type} : ValidationErrors E := some GoMap.empty

/-- The method `ValidationErrors.Field`; the map is updated in place, the
result is the map after the call.  Storing into the nil map panics. -/
def ValidationErrors.Field {E : Type} (ve : ValidationErrors E) (name : GoString)
    (err : Option E) : Except Panic (ValidationErrors E) :=
  match ve with
  | none => Except.error Panic.nilMapAssignment
  | some m => Except.ok (some (m.assign name err))

/-- The entries a `range` statement visits: none for the nil map. -/
def rangeEntries {E : Type} (ord : RangeOrder (Option E) GoString) :
    ValidationErrors E → List (GoString × Option E)
  | none => []
  | some m => ord.visit m

/-- The loop of `ValidationErrors.Error` (lines 43-45) over the entries still
to visit; `err.Error()` on a nil entry panics. -/
def errorLines {E : Type} [IsError E] :
    List (GoString × Option E) → List Byte → Except Panic (List Byte)
  | [], sb => Except.ok sb
  | (_, none) :: _, _ => Except.error Panic.nilDereference
  | (field, some err) :: rest, sb =>
    errorLines rest
      (sb ++ (field.bytes ++ (GoString.ofString ": ").bytes ++ (IsError.Error err).bytes
        ++ (GoString.ofString "\n").bytes))

/-- The method `ValidationErrors.Error`. -/
def ValidationErrors.Error {E : Type} [IsError E] (ord : RangeOrder (Option E) GoString)
    (ve : ValidationErrors E) : Except Panic GoString :=
  match errorLines (rangeEntries ord ve) [] with
  | Except.ok sb => Except.ok ⟨sb⟩
  | Except.error p => Except.error p

/-- The loop of `MarshalJSON` (lines 53-55) over the entries still to visit;
`err.Error()` on a nil entry panics. -/
def collectMessages {E : Type} [IsError E] :
    List (GoString × Option E) → GoMap GoString GoString →
      Except Panic (GoMap GoString GoString)
  | [], m => Except.ok m
  | (_, none) :: _, _ => Except.error Panic.nilDereference
  | (field, some err) :: rest, m => collectMessages rest (m.assign field (IsError.Error err))

/-- The map `errorMessages` built by lines 51-55 of `MarshalJSON`. -/
def errorMessages {E : Type} [IsError E] (ord : RangeOrder (Option E) GoString)
    (ve : ValidationErrors E) : Except Panic (GoMap GoString GoString) :=
  collectMessages (rangeEntries ord ve) GoMap.empty

/-- The method `ValidationErrors.MarshalJSON`: it panics when an entry is nil,
and returns the result of `json.Marshal(errorMessages)` otherwise. -/
def ValidationErrors.MarshalJSON {E : Type} [IsError E] (ord : RangeOrder (Option E) GoString)
    (ve : ValidationErrors E) : Except Panic (Except String Json.JsonDoc) :=
  match errorMessages ord ve with
  | Except.error p => Except.error p
  | Except.ok m => Except.ok (Json.marshalStringMap (some m))

/-- A run of `Field` calls on a map, one after the other. -/
def fieldsFrom {E : Type} :
    ValidationErrors E → List (GoString × Option E) → Except Panic (ValidationErrors E)
  | ve, [] => Except.ok ve
  | ve, c :: rest =>
    match ValidationErrors.Field ve c.1 c.2 with
    | Except.ok ve' => fieldsFrom ve' rest
    | Except.error p => Except.error p

/-- A run of `Field` calls on the result of `New()`. -/
def fieldAll {E : Type} (calls : List (GoString × Option E)) :
    Except Panic (ValidationErrors E) :=
  fieldsFrom New calls

/-- The call `MarshalJSON` on the map a run of `Field` calls on `New()` built. -/
def marshalFields {E : Type} [IsError E] (ord : RangeOrder (Option E) GoString)
    (calls : List (GoString × Option E)) : Except Panic (Except String Json.JsonDoc) :=
  match fieldAll calls with
  | Except.ok ve => ValidationErrors.MarshalJSON ord ve
  | Except.error p => Except.error p

/-- The message of the last error added for a name by a run of `Field` calls
with non-nil errors, if any was added. -/
def lastMessage {E : Type} [IsError E] (calls : List (GoString × E)) (name : GoString) :
    Option GoString :=
  ((calls.filter (fun c => c.1 == name)).getLast?).map (fun c => IsError.Error c.2)

/-- The `Field` calls of the test `TestMarshalJSON`. -/
def testFields : List (GoString × FieldError) :=
  [("Username", { Message := "Username is required" }),
    ("Password", { Message := "Password must be at least 8 characters" })]

end Validator

/-! ## http/response/response.go -/

namespace Response

open Validator Json

/-- Error values other than `nil` that reach the handlers: the result of
`errors.New`, a `validator.FieldError`, a `validator.ValidationErrors`, and the
result of `fmt.Errorf` with one `%w` verb, which wraps an error. -/
inductive Err (E : Type) where
  | errorString (s : GoString)
  | fieldError (fe : FieldError)
  | validationErrors (ve : ValidationErrors E)
  | wrapError (msg : GoString) (err : Err E)
deriving DecidableEq

/-- Values passed as `body any` to the handlers: `nil`, a `map[string]string`
(`none` is the nil map) or an error. -/
inductive Body (E : Type) where
  | nil
  | stringMap (m : Option (GoMap GoString GoString))
  | error (err : Err E)
deriving DecidableEq

/-- A call on the `http.ResponseWriter` or on the logger; `panic` is a panic
that leaves the handler. -/
inductive Call (E : Type) where
  | setHeader (key value : String)
  | writeHeader (status : Nat)
  | write (doc : JsonDoc)
  | logError (err : Option (Err E))
  | logEncodeFailed (reason : String)
  | panic (p : Panic)
deriving DecidableEq

/-- The constant `http.StatusBadRequest`. -/
def StatusBadRequest : Nat := 400

/-- The constant `http.StatusNotFound`. -/
def StatusNotFound : Nat := 404

/-- The constant `http.StatusInternalServerError`. -/
def StatusInternalServerError : Nat := 500

/-- The walk of `errors.As` along the chain of a non-nil error, for a target
of type `validator.ValidationErrors`: the first error of the chain that is a
`ValidationErrors`. -/
def Err.asValidationErrors {E : Type} : Err E → Option (ValidationErrors E)
  | Err.errorString _ => none
  | Err.fieldError _ => none
  | Err.validationErrors ve => some ve
  | Err.wrapError _ err => err.asValidationErrors

/-- The call `errors.As(err, &validationErrors)`: `none` when the call returns
false, which it does for a nil `err`; the value stored in the target
otherwise. -/
def errorsAs {E : Type} : Option (Err E) → Option (ValidationErrors E)
  | none => none
  | some err => err.asValidationErrors

/-- The call `json.Marshal(body)`: `nil` is `null`; a `ValidationErrors` is
encoded by its `MarshalJSON` method, whose panic is not recovered; a struct is
encoded as an object of its exported fields, so a `FieldError` has the member
`Message`, and the values of `errors.New` and `fmt.Errorf`, which have no
exported field, are empty objects. -/
def jsonMarshal {E : Type} [IsError E] (ord : RangeOrder (Option E) GoString) :
    Body E → Except Panic (Except String JsonDoc)
  | Body.nil => Except.ok (Except.ok JsonDoc.null)
  | Body.stringMap m => Except.ok (marshalStringMap m)
  | Body.error (Err.validationErrors ve) => ValidationErrors.MarshalJSON ord ve
  | Body.error (Err.fieldError fe) =>
    Except.ok (Except.ok (JsonDoc.object [("Message", fe.Message.toText)]))
  | Body.error (Err.errorString _) => Except.ok (Except.ok (JsonDoc.object []))
  | Body.error (Err.wrapError _ _) => Except.ok (Except.ok (JsonDoc.object []))

/-- The function `HandleStatus`. -/
def HandleStatus {E : Type} (w : List (Call E)) (status : Nat) : List (Call E) :=
  w ++ [Call.writeHeader status]

/-- The function `HandleNotFound`. -/
def HandleNotFound {E : Type} (w : List (Call E)) : List (Call E) :=
  w ++ [Call.writeHeader StatusNotFound]

/-- The statement `if err := json.NewEncoder(w).Encode(body); err != nil`
with its logging branch, the last statement of both JSON handlers: the
document is written when the encoding succeeds, the failure is logged when it
returns an error, and a panic of the encoding leaves the handler. -/
def encodeOrLog {E : Type} [IsError E] (ord : RangeOrder (Option E) GoString)
    (w : List (Call E)) (body : Body E) : List (Call E) :=
  match jsonMarshal ord body with
  | Except.ok (Except.ok doc) => w ++ [Call.write doc]
  | Except.ok (Except.error reason) => w ++ [Call.logEncodeFailed reason]
  | Except.error p => w ++ [Call.panic p]

/-- The function `HandleJSON`. -/
def HandleJSON {E : Type} [IsError E] (ord : RangeOrder (Option E) GoString)
    (w : List (Call E)) (body : Body E) : List (Call E) :=
  encodeOrLog ord (w ++ [Call.setHeader "Content-Type" "application/json"]) body

/-- The function `HandleJSONWithStatus`. -/
def HandleJSONWithStatus {E : Type} [IsError E] (ord : RangeOrder (Option E) GoString)
    (w : List (Call E)) (body : Body E) (status : Nat) : List (Call E) :=
  encodeOrLog ord
    (w ++ [Call.setHeader "Content-Type" "application/json"] ++ [Call.writeHeader status]) body

/-- The function `HandleServerError`. -/
def HandleServerError {E : Type} (w : List (Call E)) (err : Option (Err E)) : List (Call E) :=
  HandleStatus (w ++ [Call.logError err]) StatusInternalServerError

/-- The argument `err` as the `body any` of `HandleJSONWithStatus`. -/
def Body.ofError {E : Type} : Option (Err E) → Body E
  | none => Body.nil
  | some err => Body.error err

/-- The function `HandleValidationError`. -/
def HandleValidationError {E : Type} [IsError E] (ord : RangeOrder (Option E) GoString)
    (w : List (Call E)) (err : Option (Err E)) : List (Call E) :=
  match errorsAs err with
  | none => HandleServerError w err
  | some _ => HandleJSONWithStatus ord w (Body.ofError err) StatusBadRequest

/-- The documents written to the response body. -/
def bodies {E : Type} : List (Call E) → List JsonDoc
  | [] => []
  | Call.write doc :: rest => doc :: bodies rest
  | _ :: rest => bodies rest

/-- The status codes passed to `WriteHeader`. -/
def statuses {E : Type} : List (Call E) → List Nat
  | [] => []
  | Call.writeHeader status :: rest => status :: statuses rest
  | _ :: rest => statuses rest

/-- The headers set before the first `WriteHeader`, which are the ones sent. -/
def sentHeaders {E : Type} : List (Call E) → List (String × String)
  | [] => []
  | Call.setHeader key value :: rest => (key, value) :: sentHeaders rest
  | Call.writeHeader _ :: _ => []
  | _ :: rest => sentHeaders rest

/-- The error of the test `TestHandleValidationError_WithValidationError`:
`Name` has the error "Name is required". -/
def nameRequired : ValidationErrors FieldError :=
  match ValidationErrors.Field New "Name" (NewFieldError "Name is required") with
  | Except.ok ve => ve
  | Except.error _ => none

end Response

/-! ## Lemmas on Go strings -/

theorem byte_val (b : Byte) : byte b.val = b :=
  Fin.ext (Nat.mod_eq_of_lt b.isLt)

theorem byte_eq (b : Byte) (n : Nat) (h : n = b.val) : byte n = b := by
  subst h; exact byte_val b

theorem inRange_iff (lo hi : Nat) (b : Byte) :
    inRange lo hi b = true ↔ lo ≤ b.val ∧ b.val ≤ hi := by
  simp [inRange]

theorem encodeRune_two (b0 b1 : Byte) (h0 : 194 ≤ b0.val ∧ b0.val ≤ 223)
    (h1 : 128 ≤ b1.val ∧ b1.val ≤ 191) :
    encodeRune ((b0.val - 192) * 64 + (b1.val - 128)) = [b0, b1] ∧
      ((b0.val - 192) * 64 + (b1.val - 128)).isValidChar := by
  have hc1 : ¬ (b0.val - 192) * 64 + (b1.val - 128) < 0x80 := by omega
  have hc2 : (b0.val - 192) * 64 + (b1.val - 128) < 0x800 := by omega
  refine ⟨?_, Or.inl (by omega)⟩
  rw [encodeRune, if_neg hc1, if_pos hc2]
  rw [byte_eq b0 _ (by omega), byte_eq b1 _ (by omega)]

theorem encodeRune_three (b0 b1 b2 : Byte) (h0 : 224 ≤ b0.val ∧ b0.val ≤ 239)
    (h1 : (if b0.val = 224 then 160 else 128) ≤ b1.val ∧
      b1.val ≤ (if b0.val = 237 then 159 else 191))
    (h2 : 128 ≤ b2.val ∧ b2.val ≤ 191) :
    encodeRune ((b0.val - 224) * 4096 + (b1.val - 128) * 64 + (b2.val - 128)) = [b0, b1, b2] ∧
      ((b0.val - 224) * 4096 + (b1.val - 128) * 64 + (b2.val - 128)).isValidChar := by
  have hlo : 128 ≤ b1.val := by split at h1 <;> omega
  have hhi : b1.val ≤ 191 := by
    obtain ⟨_, h⟩ := h1
    split at h <;> omega
  have hc1 : ¬ (b0.val - 224) * 4096 + (b1.val - 128) * 64 + (b2.val - 128) < 0x80 := by
    obtain ⟨h, _⟩ := h1
    split at h <;> omega
  have hc2 : ¬ (b0.val - 224) * 4096 + (b1.val - 128) * 64 + (b2.val - 128) < 0x800 := by
    obtain ⟨h, _⟩ := h1
    split at h <;> omega
  have hc3 : (b0.val - 224) * 4096 + (b1.val - 128) * 64 + (b2.val - 128) < 0x10000 := by
    omega
  refine ⟨?_, ?_⟩
  · rw [encodeRune, if_neg hc1, if_neg hc2, if_pos hc3]
    rw [byte_eq b0 _ (by omega), byte_eq b1 _ (by omega), byte_eq b2 _ (by omega)]
  · obtain ⟨_, h⟩ := h1
    unfold Nat.isValidChar
    split at h <;> omega

theorem encodeRune_four (b0 b1 b2 b3 : Byte) (h0 : 240 ≤ b0.val ∧ b0.val ≤ 244)
    (h1 : (if b0.val = 240 then 144 else 128) ≤ b1.val ∧
      b1.val ≤ (if b0.val = 244 then 143 else 191))
    (h2 : 128 ≤ b2.val ∧ b2.val ≤ 191) (h3 : 128 ≤ b3.val ∧ b3.val ≤ 191) :
    encodeRune ((b0.val - 240) * 262144 + (b1.val - 128) * 4096 + (b2.val - 128) * 64
        + (b3.val - 128)) = [b0, b1, b2, b3] ∧
      ((b0.val - 240) * 262144 + (b1.val - 128) * 4096 + (b2.val - 128) * 64
        + (b3.val - 128)).isValidChar := by
  have hlo : 128 ≤ b1.val := by split at h1 <;> omega
  have hhi : b1.val ≤ 191 := by
    obtain ⟨_, h⟩ := h1
    split at h <;> omega
  have hc3 : ¬ (b0.val - 240) * 262144 + (b1.val - 128) * 4096 + (b2.val - 128) * 64
      + (b3.val - 128) < 0x10000 := by
    obtain ⟨h, _⟩ := h1
    split at h <;> omega
  have hc1 : ¬ (b0.val - 240) * 262144 + (b1.val - 128) * 4096 + (b2.val - 128) * 64
      + (b3.val - 128) < 0x80 := by omega
  have hc2 : ¬ (b0.val - 240) * 262144 + (b1.val - 128) * 4096 + (b2.val - 128) * 64
      + (b3.val - 128) < 0x800 := by omega
  refine ⟨?_, ?_⟩
  · rw [encodeRune, if_neg hc1, if_neg hc2, if_neg hc3]
    rw [byte_eq b0 _ (by omega), byte_eq b1 _ (by omega), byte_eq b2 _ (by omega),
      byte_eq b3 _ (by omega)]
  · obtain ⟨_, h⟩ := h1
    unfold Nat.isValidChar
    split at h <;> omega

/-- A well-formed head decodes to a valid code point whose encoding is the
head itself. -/
theorem decodeRune_spec (l : List Byte) (c n : Nat) (h : decodeRune l = some (c, n)) :
    1 ≤ n ∧ n ≤ l.length ∧ encodeRune c = l.take n ∧ c.isValidChar := by
  cases l with
  | nil => simp [decodeRune] at h
  | cons b0 rest =>
    have hb0 := b0.isLt
    simp only [decodeRune] at h
    split at h
    · rename_i h0
      simp only [Option.some.injEq, Prod.mk.injEq] at h
      obtain ⟨rfl, rfl⟩ := h
      refine ⟨le_refl _, by simp, ?_, ?_⟩
      · simp [encodeRune, h0, byte_val]
      · left; omega
    · rename_i h0
      split at h
      · rename_i h1
        rw [inRange_iff] at h1
        cases rest with
        | nil => simp at h
        | cons b1 rest =>
          simp only at h
          split at h
          · rename_i h2
            rw [inRange_iff] at h2
            simp only [Option.some.injEq, Prod.mk.injEq] at h
            obtain ⟨rfl, rfl⟩ := h
            obtain ⟨e1, e2⟩ := encodeRune_two b0 b1 h1 h2
            exact ⟨by omega, by simp, by simpa using e1, e2⟩
          · simp at h
      · split at h
        · rename_i h1
          rw [inRange_iff] at h1
          match rest, h with
          | [], h => simp at h
          | [_], h => simp at h
          | b1 :: b2 :: rest, h =>
            simp only at h
            by_cases h2 : (inRange (if b0.val = 0xE0 then 0xA0 else 0x80)
                (if b0.val = 0xED then 0x9F else 0xBF) b1 && inRange 0x80 0xBF b2) = true
            · rw [if_pos h2] at h
              rw [Bool.and_eq_true, inRange_iff, inRange_iff] at h2
              simp only [Option.some.injEq, Prod.mk.injEq] at h
              obtain ⟨rfl, rfl⟩ := h
              obtain ⟨e1, e2⟩ := encodeRune_three b0 b1 b2 h1 h2.1 h2.2
              exact ⟨by omega, by simp, by simpa using e1, e2⟩
            · rw [if_neg h2] at h
              simp at h
        · split at h
          · rename_i h1
            rw [inRange_iff] at h1
            match rest, h with
            | [], h => simp at h
            | [_], h => simp at h
            | [_, _], h => simp at h
            | b1 :: b2 :: b3 :: rest, h =>
              simp only at h
              by_cases h2 : (inRange (if b0.val = 0xF0 then 0x90 else 0x80)
                  (if b0.val = 0xF4 then 0x8F else 0xBF) b1 && inRange 0x80 0xBF b2
                  && inRange 0x80 0xBF b3) = true
              · rw [if_pos h2] at h
                rw [Bool.and_eq_true, Bool.and_eq_true, inRange_iff, inRange_iff,
                  inRange_iff] at h2
                simp only [Option.some.injEq, Prod.mk.injEq] at h
                obtain ⟨rfl, rfl⟩ := h
                obtain ⟨e1, e2⟩ := encodeRune_four b0 b1 b2 b3 h1 h2.1.1 h2.1.2 h2.2
                exact ⟨by omega, by simp, by simpa using e1, e2⟩
              · rw [if_neg h2] at h
                simp at h
          · simp at h

theorem toNat_ofNat_of_valid (c : Nat) (h : c.isValidChar) : (Char.ofNat c).toNat = c := by
  simp [Char.ofNat, h, Char.ofNatAux, Char.toNat, UInt32.toNat]

/-- Decoding the rest of a well-formed byte sequence and encoding the result
gives the bytes back. -/
theorem encodeChars_decodeChars (l : List Byte) : ∀ skip : Nat,
    validBytes skip l = true → encodeChars (decodeChars skip l) = l.drop skip := by
  induction l with
  | nil =>
    intro skip h
    cases skip <;> simp [decodeChars, encodeChars]
  | cons b rest ih =>
    intro skip h
    cases skip with
    | succ k =>
      simp only [validBytes] at h
      simpa [decodeChars] using ih k h
    | zero =>
      simp only [validBytes] at h
      simp only [decodeChars]
      cases hd : decodeRune (b :: rest) with
      | none => simp [hd] at h
      | some r =>
        obtain ⟨c, n⟩ := r
        simp only [hd] at h
        obtain ⟨h1, h2, h3, h4⟩ := decodeRune_spec _ _ _ hd
        simp only [encodeChars, toNat_ofNat_of_valid c h4, ih (n - 1) h, h3]
        obtain ⟨m, rfl⟩ : ∃ m, n = m + 1 := ⟨n - 1, by omega⟩
        simp

/-- A well-formed Go string is the UTF-8 encoding of its text. -/
theorem GoString.ofString_toText (s : GoString) (h : s.valid = true) :
    GoString.ofString s.toText = s := by
  cases s with
  | mk bytes =>
    simp only [GoString.ofString, GoString.toText, GoString.mk.injEq]
    simpa using encodeChars_decodeChars bytes 0 h

/-- Well-formed Go strings with the same text are equal. -/
theorem GoString.toText_inj (s t : GoString) (hs : s.valid = true) (ht : t.valid = true)
    (h : s.toText = t.toText) : s = t := by
  rw [← GoString.ofString_toText s hs, ← GoString.ofString_toText t ht, h]

/-! ## Lemmas on maps -/

theorem keys_assignList {K V : Type} [DecidableEq K] (k : K) (v : V) (l : List (K × V)) :
    (assignList k v l).map Prod.fst =
      if k ∈ l.map Prod.fst then l.map Prod.fst else l.map Prod.fst ++ [k] := by
  induction l with
  | nil => simp [assignList]
  | cons e rest ih =>
    by_cases h : e.1 = k
    · simp [assignList, h]
    · have h' : ¬ k = e.1 := fun h'' => h h''.symm
      simp only [assignList, h, if_false, List.map_cons, ih, List.mem_cons, h', false_or]
      split <;> simp

theorem assignList_of_not_mem {K V : Type} [DecidableEq K] (k : K) (v : V) (l : List (K × V))
    (h : k ∉ l.map Prod.fst) : assignList k v l = l ++ [(k, v)] := by
  induction l with
  | nil => rfl
  | cons e rest ih =>
    have h1 : ¬ e.1 = k := fun h' => h (by simp [h'])
    have h2 : k ∉ rest.map Prod.fst := fun h' => h (by simp at h' ⊢; exact Or.inr h')
    simp [assignList, h1, ih h2]

/-- Looking up a key in a list of entries. -/
theorem find_assignList_self {K V : Type} [DecidableEq K] (k : K) (v : V) (l : List (K × V)) :
    ((assignList k v l).find? (fun e => e.1 == k)).map Prod.snd = some v := by
  induction l with
  | nil => simp [assignList]
  | cons e rest ih =>
    by_cases h : e.1 = k
    · simp [assignList, h]
    · simp [assignList, h, List.find?_cons, ih]

theorem find_assignList_other {K V : Type} [DecidableEq K] (k k' : K) (v : V) (l : List (K × V))
    (hk : k' ≠ k) :
    ((assignList k v l).find? (fun e => e.1 == k')).map Prod.snd =
      (l.find? (fun e => e.1 == k')).map Prod.snd := by
  induction l with
  | nil => simp [assignList, List.find?_cons, Ne.symm hk]
  | cons e rest ih =>
    by_cases h : e.1 = k
    · have : ¬ e.1 = k' := fun h' => hk (h'.symm.trans h)
      simp [assignList, h, List.find?_cons, Ne.symm hk, this]
    · simp only [assignList, h, if_false, List.find?_cons]
      split
      · rfl
      · exact ih

namespace GoMap

variable {K V : Type} [DecidableEq K]

theorem get?_assign_self (m : GoMap V K) (k : K) (v : V) :
    (m.assign k v).get? k = some v :=
  find_assignList_self k v m.entries

theorem get?_assign_other (m : GoMap V K) (k k' : K) (v : V) (h : k' ≠ k) :
    (m.assign k v).get? k' = m.get? k' :=
  find_assignList_other k k' v m.entries h

theorem keys_assign (m : GoMap V K) (k : K) (v : V) :
    (m.assign k v).keys = if k ∈ m.keys then m.keys else m.keys ++ [k] :=
  keys_assignList k v m.entries

theorem mem_keys_assign (m : GoMap V K) (k k' : K) (v : V) :
    k' ∈ (m.assign k v).keys ↔ k' = k ∨ k' ∈ m.keys := by
  rw [keys_assign]
  split
  · rename_i h
    constructor
    · exact Or.inr
    · rintro (rfl | h')
      · exact h
      · exact h'
  · simp [or_comm]

/-- Copying entries with distinct keys one by one into a map that has none of
the keys appends them in the order of the copy. -/
theorem foldl_assign_entries (l : List (K × V)) (m : GoMap V K)
    (hl : (l.map Prod.fst).Nodup) (hd : ∀ k ∈ l.map Prod.fst, k ∉ m.keys) :
    (l.foldl (fun m e => m.assign e.1 e.2) m).entries = m.entries ++ l := by
  induction l generalizing m with
  | nil => simp
  | cons e rest ih =>
    have he : e.1 ∉ m.keys := hd e.1 (by simp)
    have hl' : (rest.map Prod.fst).Nodup := (List.nodup_cons.1 (by simpa using hl)).2
    have hne : e.1 ∉ rest.map Prod.fst := (List.nodup_cons.1 (by simpa using hl)).1
    have hstep : (m.assign e.1 e.2).entries = m.entries ++ [e] := by
      show assignList e.1 e.2 m.entries = _
      rw [assignList_of_not_mem e.1 e.2 m.entries he]
    rw [List.foldl_cons, ih (m.assign e.1 e.2) hl', hstep]
    · simp
    · intro k hk hk'
      rcases (mem_keys_assign m e.1 k e.2).1 hk' with h | h
      · exact hne (h ▸ hk)
      · exact hd k (by simp at hk ⊢; exact Or.inr hk) h

theorem filter_key_entries (l : List (K × V)) (hn : (l.map Prod.fst).Nodup)
    (t : K) (h : V)
    (hg : (l.find? (fun e => e.1 == t)).map Prod.snd = some h) :
    l.filter (fun e => e.1 == t) = [(t, h)] := by
  induction l with
  | nil => simp at hg
  | cons e rest ih =>
    rw [List.map_cons] at hn
    have hn' := List.nodup_cons.1 hn
    by_cases he : e.1 = t
    · have hrest : rest.filter (fun e => e.1 == t) = [] := by
        rw [List.filter_eq_nil_iff]
        intro x hx
        have : x.1 ≠ e.1 := fun h' => hn'.1 (h' ▸ List.mem_map_of_mem Prod.fst hx)
        simpa [he] using this
      have hv : e.2 = h := by simpa [List.find?_cons, he] using hg
      rw [List.filter_cons, hrest]
      simp only [he, beq_self_eq_true, if_true]
      rw [← he, ← hv]
    · have hg' : (rest.find? (fun e => e.1 == t)).map Prod.snd = some h := by
        simpa [List.find?_cons, he] using hg
      rw [List.filter_cons]
      simp only [he, beq_iff_eq, if_false]
      exact ih hn'.2 hg'

/-- A key that is present has exactly one entry, the one `get?` returns. -/
theorem filter_key (m : GoMap V K) (t : K) (h : V) (hg : m.get? t = some h) :
    m.entries.filter (fun e => e.1 == t) = [(t, h)] :=
  filter_key_entries m.entries m.nodup t h hg

theorem mem_keys_of_get? (m : GoMap V K) (t : K) (h : V) (hg : m.get? t = some h) :
    t ∈ m.keys := by
  have : (t, h) ∈ m.entries.filter (fun e => e.1 == t) := by
    rw [filter_key m t h hg]; simp
  exact List.mem_map.2 ⟨(t, h), (List.mem_filter.1 this).1, rfl⟩

theorem find_key_eq_some_iff (l : List (K × V)) (hn : (l.map Prod.fst).Nodup)
    (k : K) (v : V) :
    (l.find? (fun e => e.1 == k)).map Prod.snd = some v ↔ (k, v) ∈ l := by
  induction l with
  | nil => simp
  | cons e rest ih =>
    rw [List.map_cons] at hn
    have hn' := List.nodup_cons.1 hn
    by_cases he : e.1 = k
    · simp only [List.find?_cons, he, beq_self_eq_true, Option.map_some', Option.some.injEq,
        List.mem_cons]
      constructor
      · intro hv
        left
        rw [← he, ← hv]
      · rintro (h | h)
        · rw [← h]
        · exact absurd (List.mem_map_of_mem Prod.fst h) (by simpa [he] using hn'.1)
    · have hne : ¬ (k, v) = e := fun h => he (by rw [← h])
      have hb : (e.1 == k) = false := by simpa using he
      simp only [List.find?_cons, hb, List.mem_cons, hne, false_or]
      exact ih hn'.2

/-- Lists of entries with distinct keys that are rearrangements of each other
answer lookups alike. -/
theorem find_key_perm (l₁ l₂ : List (K × V)) (hp : l₁.Perm l₂)
    (hn : (l₁.map Prod.fst).Nodup) (k : K) :
    (l₁.find? (fun e => e.1 == k)).map Prod.snd =
      (l₂.find? (fun e => e.1 == k)).map Prod.snd := by
  have hn₂ : (l₂.map Prod.fst).Nodup := (hp.map Prod.fst).nodup_iff.1 hn
  apply Option.ext
  intro v
  show _ = some v ↔ _ = some v
  rw [find_key_eq_some_iff l₁ hn, find_key_eq_some_iff l₂ hn₂]
  exact hp.mem_iff

theorem find_key_map {W : Type} (f : V → W) (l : List (K × V)) (k : K) :
    ((l.map (fun e => (e.1, f e.2))).find? (fun e => e.1 == k)).map Prod.snd =
      ((l.find? (fun e => e.1 == k)).map Prod.snd).map f := by
  induction l with
  | nil => rfl
  | cons e rest ih =>
    by_cases he : e.1 = k
    · simp [List.find?_cons, he]
    · simpa [List.find?_cons, he] using ih

theorem get?_empty (k : K) : (GoMap.empty : GoMap V K).get? k = none := rfl

theorem foldl_assign_concat (l : List (K × V)) (e : K × V) (m : GoMap V K) :
    (l ++ [e]).foldl (fun m e => m.assign e.1 e.2) m =
      (l.foldl (fun m e => m.assign e.1 e.2) m).assign e.1 e.2 := by
  simp [List.foldl_append]

/-- After a run of assignments a key reads as the value of the last assignment
to it, and as before the run when there is none. -/
theorem get?_foldl_assign (l : List (K × V)) (m : GoMap V K) (k : K) :
    (l.foldl (fun m e => m.assign e.1 e.2) m).get? k =
      match (l.filter (fun c => c.1 == k)).getLast? with
      | some c => some c.2
      | none => m.get? k := by
  induction l using List.reverseRecOn with
  | nil => rfl
  | append_singleton init e ih =>
    rw [foldl_assign_concat]
    by_cases he : e.1 = k
    · subst he
      rw [get?_assign_self]
      simp [List.filter_append]
    · have hk : k ≠ e.1 := fun h => he h.symm
      rw [get?_assign_other _ _ _ _ hk, ih]
      simp [List.filter_append, he]

theorem mem_assignList (k : K) (v : V) (l : List (K × V)) (x : K × V)
    (h : x ∈ assignList k v l) : x = (k, v) ∨ x ∈ l := by
  induction l with
  | nil => simpa [assignList] using h
  | cons e rest ih =>
    unfold assignList at h
    split at h
    · rcases List.mem_cons.1 h with h | h
      · exact Or.inl h
      · exact Or.inr (List.mem_cons_of_mem _ h)
    · rcases List.mem_cons.1 h with h | h
      · exact Or.inr (h ▸ List.mem_cons_self _ _)
      · rcases ih h with h | h
        · exact Or.inl h
        · exact Or.inr (List.mem_cons_of_mem _ h)

/-- Every entry a run of assignments leaves in a map was there before or is
one of the assignments. -/
theorem mem_entries_foldl_assign (l : List (K × V)) (m : GoMap V K) (x : K × V)
    (h : x ∈ (l.foldl (fun m e => m.assign e.1 e.2) m).entries) :
    x ∈ m.entries ∨ x ∈ l := by
  induction l generalizing m with
  | nil => exact Or.inl h
  | cons e rest ih =>
    rw [List.foldl_cons] at h
    rcases ih _ h with h | h
    · rcases mem_assignList e.1 e.2 m.entries x h with h | h
      · exact Or.inr (h ▸ List.mem_cons_self _ _)
      · exact Or.inl h
    · exact Or.inr (List.mem_cons_of_mem _ h)

theorem mem_keys_foldl_assign (l : List (K × V)) (m : GoMap V K) (k : K) :
    k ∈ (l.foldl (fun m e => m.assign e.1 e.2) m).keys ↔ k ∈ m.keys ∨ k ∈ l.map Prod.fst := by
  induction l generalizing m with
  | nil => simp
  | cons e rest ih =>
    rw [List.foldl_cons, ih, mem_keys_assign]
    simp only [List.map_cons, List.mem_cons]
    tauto

end GoMap

/-! ## Properties of the connect loop -/

namespace Broker

theorem sleeps_append {H : Type} (l₁ l₂ : List (Event H)) :
    sleeps (l₁ ++ l₂) = sleeps l₁ ++ sleeps l₂ := by
  induction l₁ with
  | nil => rfl
  | cons e rest ih => cases e <;> simp [sleeps, ih]

theorem connects_append {H : Type} (l₁ l₂ : List (Event H)) :
    connects (l₁ ++ l₂) = connects l₁ + connects l₂ := by
  induction l₁ with
  | nil => simp [connects]
  | cons e rest ih =>
    cases e <;> simp [connects, ih]
    omega

theorem loopDelay_eq_delay (n : Nat) : loopDelay n = delay n := by
  have h5 : loopDelay 5 = 32 * Second := by decide
  have hstep : ∀ k, loopDelay (5 + k) = 32 * Second := by
    intro k
    induction k with
    | zero => exact h5
    | succ k ih =>
      show nextDelay (loopDelay (5 + k)) = _
      rw [ih]; decide
  by_cases h : n ≤ 5
  · interval_cases n <;> decide
  · obtain ⟨k, rfl⟩ : ∃ k, n = 5 + k := ⟨n - 5, by omega⟩
    rw [hstep]
    simp [delay, h]

/-- The loop from any round on: if the next `k` connects fail and the one after
succeeds, `k + 1` rounds end the loop after exactly `k` sleeps, the `i`-th of
them lasting the delay `nextDelay` reaches after `i` updates. -/
theorem connectLoop_from {H : Type} (tr : Transport H) (outcome : Nat → Token)
    (hseq : ∀ trace, tr.Connect trace = outcome (connects trace))
    (k : Nat) : ∀ (n : Nat) (trace : List (Event H)),
    connects trace = n →
    (∀ i, i < k → connected (outcome (n + i)) = false) →
    connected (outcome (n + k)) = true →
    ∃ out, connectLoop tr (k + 1) (loopDelay n) trace = some out ∧
      sleeps out = sleeps trace ++ (List.range k).map (fun i => loopDelay (n + i)) ∧
      connects out = n + k + 1 := by
  induction k with
  | zero =>
    intro n trace hn _ hok
    refine ⟨trace ++ [Event.connect], ?_, ?_, ?_⟩
    · simp only [connectLoop, hseq, hn]
      simp at hok
      simp [hok]
    · simp [sleeps_append, sleeps]
    · simp [connects_append, connects, hn]
  | succ k ih =>
    intro n trace hn hfail hok
    have h0 : connected (outcome n) = false := by simpa using hfail 0 (by omega)
    have hn' : connects (trace ++ [Event.connect] ++
        [Event.logConnectFailed (outcome n).error (loopDelay n), Event.sleep (loopDelay n)])
        = n + 1 := by
      simp [connects_append, connects, hn]
    obtain ⟨out, h1, h2, h3⟩ := ih (n + 1) _ hn'
      (fun i hi => by have := hfail (i + 1) (by omega); rwa [show n + 1 + i = n + (i + 1) by omega])
      (by rwa [show n + 1 + k = n + (k + 1) by omega])
    refine ⟨out, ?_, ?_, ?_⟩
    · rw [connectLoop]
      simp only [hseq, hn, h0]
      exact h1
    · rw [h2, List.range_succ_eq_map]
      simp [sleeps_append, sleeps, Function.comp, Nat.add_assoc, Nat.add_comm 1]
    · rw [h3]; omega

/-- For every `N`: when the first `N` connects fail and the next succeeds, the
loop returns after `N + 1` rounds having slept exactly `N` times, the `n`-th
sleep lasting `2^n` seconds for `n ≤ 5` and 32 seconds from then on. -/
theorem connectLoop_sleeps {H : Type} (tr : Transport H) (outcome : Nat → Token)
    (hseq : ∀ trace, tr.Connect trace = outcome (connects trace)) (N : Nat)
    (hfail : ∀ i, i < N → connected (outcome i) = false)
    (hok : connected (outcome N) = true) :
    ∃ out, connectLoop tr (N + 1) initialDelay [] = some out ∧
      sleeps out = (List.range N).map delay := by
  obtain ⟨out, h1, h2, _⟩ := connectLoop_from tr outcome hseq N 0 [] rfl
    (fun i hi => by simpa using hfail i hi) (by simpa using hok)
  refine ⟨out, h1, ?_⟩
  rw [h2]
  simp [sleeps, loopDelay_eq_delay]

theorem connectLoop_sleeps_witness :
    ∃ out, connectLoop (failingTransport 3) (3 + 1) initialDelay [] = some out ∧
      sleeps out = (List.range 3).map delay :=
  connectLoop_sleeps (failingTransport 3)
    (fun i => if i < 3 then ⟨true, some "refused"⟩ else ⟨true, none⟩)
    (fun _ => rfl) 3
    (fun i hi => by simp [hi, connected])
    (by simp [connected])

/-- Claim C1, at the failing input.  When the first six connects fail and the
seventh succeeds, the loop sleeps six times, for 1, 2, 4, 8, 16 and 32 seconds:
the sixth sleep is longer than `maxDelay`, where the claimed delay
`min(1s * 2^5, 30s)` is 30 seconds. -/
theorem C1_sixth_delay_exceeds_ceiling :
    (connectLoop (failingTransport 6) 7 initialDelay []).map sleeps =
        some [1 * Second, 2 * Second, 4 * Second, 8 * Second, 16 * Second, 32 * Second] ∧
      maxDelay = 30 * Second ∧
      min (initialDelay * 2 ^ 5) maxDelay = 30 * Second ∧
      maxDelay < 32 * Second := by
  decide

end Broker

/-! ## Properties of the subscription registry and of the replay -/

namespace Broker

variable {H : Type}

theorem subscribes_append (l₁ l₂ : List (Event H)) :
    subscribes (l₁ ++ l₂) = subscribes l₁ ++ subscribes l₂ := by
  induction l₁ with
  | nil => rfl
  | cons e rest ih => cases e <;> simp [subscribes, ih]

theorem subscribes_outcomeEvent (token : Token) (topic : String) :
    subscribes [(outcomeEvent token topic : Event H)] = [] := by
  unfold outcomeEvent
  split <;> rfl

theorem emitted_of_trace (c c' : Client H) (ev : List (Event H))
    (h : c'.trace = c.trace ++ ev) : emitted c c' = ev := by
  simp [emitted, h]

theorem subscribeAndLog_subs (tr : Transport H) (c : Client H) (t : String) (q : Byte)
    (h : H) : (subscribeAndLog tr c t q h).subs = c.subs := rfl

theorem subscribeAndLog_trace (tr : Transport H) (c : Client H) (t : String) (q : Byte)
    (h : H) : (subscribeAndLog tr c t q h).trace =
      c.trace ++ [Event.subscribe t q h, outcomeEvent (tr.Subscribe c.trace t q h) t] := rfl

theorem SubscribeWithTracking_subs (tr : Transport H) (c : Client H) (t : String)
    (q : Byte) (h : H) : (SubscribeWithTracking tr c t q h).subs = c.subs.assign t h := rfl

theorem SubscribeWithTracking_trace (tr : Transport H) (c : Client H) (t : String)
    (q : Byte) (h : H) : (SubscribeWithTracking tr c t q h).trace =
      c.trace ++ [Event.lock, Event.store t h, Event.unlock, Event.subscribe t q h,
        outcomeEvent (tr.Subscribe (c.trace ++ [Event.lock, Event.store t h, Event.unlock])
          t q h) t] := by
  simp [SubscribeWithTracking, subscribeAndLog_trace, record]

/-- The subscribing loop over a list of entries: the registry is untouched and
the trace grows by one `Subscribe` call with QoS 0, followed by one log line,
per entry, in the order of the list. -/
theorem replayLoop (tr : Transport H) (l : List (String × H)) : ∀ c : Client H,
    ∃ ev, (l.foldl (fun c e => subscribeAndLog tr c e.1 0 e.2) c).trace = c.trace ++ ev ∧
      (l.foldl (fun c e => subscribeAndLog tr c e.1 0 e.2) c).subs = c.subs ∧
      subscribes ev = l.map (fun e => (e.1, (0 : Byte), e.2)) ∧
      (∀ x ∈ ev, x ≠ Event.lock ∧ x ≠ Event.unlock) ∧
      callsOutsideLock false ev = true ∧
      (∀ e ∈ l, ∀ err, (∀ past q h, tr.Subscribe past e.1 q h = ⟨true, some err⟩) →
        Event.logSubscribeFailed e.1 err ∈ ev) := by
  induction l with
  | nil =>
    intro c
    exact ⟨[], by simp, rfl, rfl, by simp, rfl, by simp⟩
  | cons e rest ih =>
    intro c
    obtain ⟨ev, h1, h2, h3, h4, h5, h6⟩ := ih (subscribeAndLog tr c e.1 0 e.2)
    refine ⟨[Event.subscribe e.1 0 e.2, outcomeEvent (tr.Subscribe c.trace e.1 0 e.2) e.1]
      ++ ev, ?_, ?_, ?_, ?_, ?_, ?_⟩
    · rw [List.foldl_cons, h1, subscribeAndLog_trace]; simp
    · rw [List.foldl_cons, h2]; rfl
    · rw [subscribes_append, h3]
      have := subscribes_outcomeEvent (H := H) (tr.Subscribe c.trace e.1 0 e.2) e.1
      simp [subscribes] at this ⊢
      simp [subscribes, this]
    · intro x hx
      simp only [List.mem_append, List.mem_cons, List.mem_singleton, List.not_mem_nil,
        or_false] at hx
      rcases hx with (rfl | rfl) | hx
      · simp
      · unfold outcomeEvent; split <;> simp
      · exact h4 x hx
    · have hout : ∀ tok : Token, callsOutsideLock false
          ((outcomeEvent tok e.1 : Event H) :: ev) = callsOutsideLock false ev := by
        intro tok; unfold outcomeEvent; split <;> rfl
      simp [callsOutsideLock, hout, h5]
    · intro e' he' err hfail
      rcases List.mem_cons.1 he' with rfl | he'
      · simp [hfail, outcomeEvent]
      · exact List.mem_append_right _ (h6 e' he' err hfail)

/-- The copy made under the lock has exactly the entries of the registry, in
the order the copying loop visited them. -/
theorem snapshot_entries (ord : RangeOrder H) (c : Client H) :
    (snapshot ord c).2.entries = ord.visit c.subs := by
  have hn : ((ord.visit c.subs).map Prod.fst).Nodup :=
    ((ord.perm c.subs).map Prod.fst).nodup_iff.2 c.subs.nodup
  have := GoMap.foldl_assign_entries (ord.visit c.subs) GoMap.empty hn
    (by intro k _; simp [GoMap.keys, GoMap.empty])
  simpa [snapshot, GoMap.empty] using this

theorem snapshot_perm (ord : RangeOrder H) (c : Client H) :
    (snapshot ord c).2.entries.Perm c.subs.entries := by
  rw [snapshot_entries]; exact ord.perm c.subs

theorem snapshot_client (ord : RangeOrder H) (c : Client H) :
    (snapshot ord c).1 = { c with trace := c.trace ++ [Event.lock, Event.unlock] } := rfl

/-- One run of the on-connect handler: the registry is untouched; the trace
grows by `lock`, `unlock` and then the replay, in which the mutex is never taken
again; the `Subscribe` calls are those of the entries of the copy, with QoS 0,
in the order of the subscribing loop. -/
theorem onConnectHandler_run (ord₁ ord₂ : RangeOrder H) (tr : Transport H) (c : Client H) :
    ∃ ev, (onConnectHandler ord₁ ord₂ tr c).trace =
        c.trace ++ Event.lock :: Event.unlock :: ev ∧
      (onConnectHandler ord₁ ord₂ tr c).subs = c.subs ∧
      subscribes ev = (ord₂.visit (snapshot ord₁ c).2).map (fun e => (e.1, (0 : Byte), e.2)) ∧
      (∀ x ∈ ev, x ≠ Event.lock ∧ x ≠ Event.unlock) ∧
      callsOutsideLock false ev = true ∧
      (∀ e ∈ c.subs.entries, ∀ err,
        (∀ past q h, tr.Subscribe past e.1 q h = ⟨true, some err⟩) →
        Event.logSubscribeFailed e.1 err ∈ ev) := by
  obtain ⟨ev, h1, h2, h3, h4, h5, h6⟩ :=
    replayLoop tr (ord₂.visit (snapshot ord₁ c).2) (snapshot ord₁ c).1
  refine ⟨ev, ?_, ?_, h3, h4, h5, ?_⟩
  · unfold onConnectHandler replay
    rw [h1, snapshot_client]; simp
  · unfold onConnectHandler replay
    rw [h2, snapshot_client]
  · intro e he err hfail
    refine h6 e ?_ err hfail
    exact ((ord₂.perm _).trans (snapshot_perm ord₁ c)).mem_iff.2 he

/-- The `Subscribe` calls of one run of the on-connect handler are, up to
order, one call per entry of the registry, with QoS 0 and the registered
handler. -/
theorem onConnectHandler_issued (ord₁ ord₂ : RangeOrder H) (tr : Transport H)
    (c : Client H) :
    (issued c (onConnectHandler ord₁ ord₂ tr c)).Perm
      (c.subs.entries.map (fun e => (e.1, (0 : Byte), e.2))) := by
  obtain ⟨ev, h1, _, h3, _, _, _⟩ := onConnectHandler_run ord₁ ord₂ tr c
  have hem : issued c (onConnectHandler ord₁ ord₂ tr c) = subscribes ev := by
    unfold issued
    rw [emitted_of_trace c _ _ h1]
    rfl
  rw [hem, h3]
  exact ((ord₂.perm _).trans (snapshot_perm ord₁ c)).map _

theorem onConnectHandler_issued_topics (ord₁ ord₂ : RangeOrder H) (tr : Transport H)
    (c : Client H) :
    ((issued c (onConnectHandler ord₁ ord₂ tr c)).map (fun x => x.1)).Perm c.subs.keys := by
  have := (onConnectHandler_issued ord₁ ord₂ tr c).map (fun x => x.1)
  simpa [GoMap.keys, Function.comp] using this

/-- The registry after a run of `SubscribeWithTracking` calls. -/
theorem subscribeAll_subs (tr : Transport H) (calls : List (String × Byte × H)) :
    ∀ c : Client H, (subscribeAll tr c calls).subs =
      (calls.map (fun x => (x.1, x.2.2))).foldl (fun m e => m.assign e.1 e.2) c.subs := by
  induction calls with
  | nil => intro c; rfl
  | cons x rest ih =>
    intro c
    show (subscribeAll tr (SubscribeWithTracking tr c x.1 x.2.1 x.2.2) rest).subs = _
    rw [ih]; rfl

theorem subscribeAll_append (tr : Transport H) (c : Client H)
    (l₁ l₂ : List (String × Byte × H)) :
    subscribeAll tr c (l₁ ++ l₂) = subscribeAll tr (subscribeAll tr c l₁) l₂ := by
  simp [subscribeAll, List.foldl_append]

/-- Once a topic is registered it stays registered. -/
theorem subscribeAll_keys_mono (tr : Transport H) (calls : List (String × Byte × H)) :
    ∀ (c : Client H) (t : String), t ∈ c.subs.keys → t ∈ (subscribeAll tr c calls).subs.keys := by
  induction calls with
  | nil => intro c t h; exact h
  | cons x rest ih =>
    intro c t h
    show t ∈ (subscribeAll tr (SubscribeWithTracking tr c x.1 x.2.1 x.2.2) rest).subs.keys
    apply ih
    rw [SubscribeWithTracking_subs]
    exact (GoMap.mem_keys_assign _ _ _ _).2 (Or.inr h)

/-- Registered topics on pairwise distinct topics, from an empty registry: the
registry holds them in the order of registration. -/
theorem subscribeAll_newClient_entries (tr : Transport H) (trace : List (Event H))
    (calls : List (String × Byte × H)) (hd : (calls.map (fun x => x.1)).Nodup) :
    (subscribeAll tr (newClient trace) calls).subs.entries =
      calls.map (fun x => (x.1, x.2.2)) := by
  rw [subscribeAll_subs]
  have := GoMap.foldl_assign_entries (calls.map (fun x => (x.1, x.2.2)))
    (GoMap.empty : GoMap H) (by simpa [Function.comp] using hd)
    (by intro k _; simp [GoMap.keys, GoMap.empty])
  simpa [newClient, GoMap.empty] using this

/-- Claim C2.  After any run of `SubscribeWithTracking` calls on pairwise
distinct topics, starting from the client `NewBroker` returned, one run of the
on-connect handler issues exactly one `Subscribe` call per registered topic:
the topics of its calls are a rearrangement of the registered topics, without
duplicates, whatever the transport answers and whatever the iteration orders. -/
theorem C2_replay_once_per_topic (ord₁ ord₂ : RangeOrder H) (tr : Transport H)
    (trace : List (Event H)) (calls : List (String × Byte × H))
    (hd : (calls.map (fun x => x.1)).Nodup) :
    ((issued (subscribeAll tr (newClient trace) calls)
        (onConnectHandler ord₁ ord₂ tr (subscribeAll tr (newClient trace) calls))).map
          (fun x => x.1)).Perm (calls.map (fun x => x.1)) ∧
      ((issued (subscribeAll tr (newClient trace) calls)
        (onConnectHandler ord₁ ord₂ tr (subscribeAll tr (newClient trace) calls))).map
          (fun x => x.1)).Nodup := by
  have hp := onConnectHandler_issued_topics ord₁ ord₂ tr
    (subscribeAll tr (newClient trace) calls)
  have hk : (subscribeAll tr (newClient trace) calls).subs.keys = calls.map (fun x => x.1) := by
    simp [GoMap.keys, subscribeAll_newClient_entries tr trace calls hd, Function.comp]
  rw [hk] at hp
  exact ⟨hp, hp.nodup_iff.2 hd⟩

theorem C2_replay_once_per_topic_witness :
    ((issued (subscribeAll (failingTransport 0) (newClient [])
          [("a/1", 1, ()), ("a/2", 2, ())])
        (onConnectHandler (RangeOrder.reversed Unit) (RangeOrder.inOrder Unit)
          (failingTransport 0)
          (subscribeAll (failingTransport 0) (newClient [])
            [("a/1", 1, ()), ("a/2", 2, ())]))).map
          (fun x => x.1)).Perm ([("a/1", (1 : Byte), ()), ("a/2", 2, ())].map (fun x => x.1)) ∧
      ((issued (subscribeAll (failingTransport 0) (newClient [])
          [("a/1", 1, ()), ("a/2", 2, ())])
        (onConnectHandler (RangeOrder.reversed Unit) (RangeOrder.inOrder Unit)
          (failingTransport 0)
          (subscribeAll (failingTransport 0) (newClient [])
            [("a/1", 1, ()), ("a/2", 2, ())]))).map
          (fun x => x.1)).Nodup :=
  C2_replay_once_per_topic (RangeOrder.reversed Unit) (RangeOrder.inOrder Unit)
    (failingTransport 0) [] [("a/1", 1, ()), ("a/2", 2, ())] (by decide)

/-- The calls one run of the on-connect handler issues for a registered topic:
exactly one, with QoS 0 and the handler the registry holds. -/
theorem onConnectHandler_issued_for (ord₁ ord₂ : RangeOrder H) (tr : Transport H)
    (c : Client H) (t : String) (h : H) (hg : c.subs.get? t = some h) :
    (issued c (onConnectHandler ord₁ ord₂ tr c)).filter (fun x => x.1 == t) =
      [(t, (0 : Byte), h)] := by
  have hp := (onConnectHandler_issued ord₁ ord₂ tr c).filter (fun x => x.1 == t)
  have hf : (c.subs.entries.map (fun e => (e.1, (0 : Byte), e.2))).filter (fun x => x.1 == t)
      = [(t, (0 : Byte), h)] := by
    rw [List.filter_map]
    have := GoMap.filter_key c.subs t h hg
    simp only [Function.comp_def]
    rw [this]; rfl
  rw [hf] at hp
  exact List.perm_singleton.1 hp

/-- Claim C3, counterexample.  Registering "a/1" with QoS 1 and "a/2" with QoS 2
and then running the on-connect handler yields `Subscribe("a/1", 0, _)` and
`Subscribe("a/2", 0, _)`: neither call carries the QoS supplied at
registration. -/
theorem C3_replay_ignores_registered_qos :
    issued (subscribeAll (failingTransport 0) (newClient [])
          [("a/1", 1, ()), ("a/2", 2, ())])
        (onConnectHandler (RangeOrder.inOrder Unit) (RangeOrder.inOrder Unit)
          (failingTransport 0)
          (subscribeAll (failingTransport 0) (newClient [])
            [("a/1", 1, ()), ("a/2", 2, ())])) =
      [("a/1", 0, ()), ("a/2", 0, ())] ∧
    ¬ (("a/1", (1 : Byte), ()) ∈
      issued (subscribeAll (failingTransport 0) (newClient [])
          [("a/1", 1, ()), ("a/2", 2, ())])
        (onConnectHandler (RangeOrder.inOrder Unit) (RangeOrder.inOrder Unit)
          (failingTransport 0)
          (subscribeAll (failingTransport 0) (newClient [])
            [("a/1", 1, ()), ("a/2", 2, ())]))) := by
  decide

/-- Claim C3, amended.  `SubscribeWithTracking(topic, qos, handler)` passes the
supplied QoS to its own immediate `Subscribe` call only; the registry keeps the
handler, and the call a later run of the on-connect handler issues for that
topic is exactly one, with QoS 0 and that handler, whatever `qos` was. -/
theorem C3_replay_uses_qos_zero (ord₁ ord₂ : RangeOrder H) (tr : Transport H)
    (c : Client H) (topic : String) (qos : Byte) (handler : H) :
    issued c (SubscribeWithTracking tr c topic qos handler) = [(topic, qos, handler)] ∧
      (issued (SubscribeWithTracking tr c topic qos handler)
        (onConnectHandler ord₁ ord₂ tr (SubscribeWithTracking tr c topic qos handler))).filter
          (fun x => x.1 == topic) = [(topic, (0 : Byte), handler)] ∧
      (issued (SubscribeWithTracking tr c topic qos handler)
        (onConnectHandler ord₁ ord₂ tr (SubscribeWithTracking tr c topic qos handler))).all
          (fun x => x.2.1 == 0) = true := by
  refine ⟨?_, ?_, ?_⟩
  · unfold issued
    rw [emitted_of_trace c _ _ (SubscribeWithTracking_trace tr c topic qos handler)]
    have := subscribes_outcomeEvent (H := H) (tr.Subscribe
      (c.trace ++ [Event.lock, Event.store topic handler, Event.unlock]) topic qos handler) topic
    simp [subscribes] at this ⊢
    simp [subscribes, this]
  · apply onConnectHandler_issued_for
    rw [SubscribeWithTracking_subs]
    exact GoMap.get?_assign_self _ _ _
  · rw [List.all_eq_true]
    intro x hx
    have := (onConnectHandler_issued ord₁ ord₂ tr
      (SubscribeWithTracking tr c topic qos handler)).mem_iff.1 hx
    obtain ⟨e, _, rfl⟩ := List.mem_map.1 this
    simp

/-- Claim C4.  After `SubscribeWithTracking(t, _, h1)` followed by
`SubscribeWithTracking(t, _, h2)` the registry has exactly one entry for `t`,
holding `h2`, and every other topic reads as before; one run of the on-connect
handler then issues exactly one `Subscribe` call for `t`, with handler `h2`, so
none with `h1` when `h1` differs from `h2`. -/
theorem C4_last_writer_wins (ord₁ ord₂ : RangeOrder H) (tr : Transport H)
    (c : Client H) (t : String) (q1 q2 : Byte) (h1 h2 : H) :
    (SubscribeWithTracking tr (SubscribeWithTracking tr c t q1 h1) t q2 h2).subs.get? t
        = some h2 ∧
      (SubscribeWithTracking tr (SubscribeWithTracking tr c t q1 h1) t q2 h2).subs.entries.filter
        (fun e => e.1 == t) = [(t, h2)] ∧
      (∀ t', t' ≠ t →
        (SubscribeWithTracking tr (SubscribeWithTracking tr c t q1 h1) t q2 h2).subs.get? t'
          = c.subs.get? t') ∧
      (issued (SubscribeWithTracking tr (SubscribeWithTracking tr c t q1 h1) t q2 h2)
        (onConnectHandler ord₁ ord₂ tr
          (SubscribeWithTracking tr (SubscribeWithTracking tr c t q1 h1) t q2 h2))).filter
            (fun x => x.1 == t) = [(t, (0 : Byte), h2)] ∧
      (h1 ≠ h2 → ∀ q, (t, q, h1) ∉
        issued (SubscribeWithTracking tr (SubscribeWithTracking tr c t q1 h1) t q2 h2)
          (onConnectHandler ord₁ ord₂ tr
            (SubscribeWithTracking tr (SubscribeWithTracking tr c t q1 h1) t q2 h2))) := by
  have hg : (SubscribeWithTracking tr (SubscribeWithTracking tr c t q1 h1) t q2 h2).subs.get? t
      = some h2 := by
    rw [SubscribeWithTracking_subs]; exact GoMap.get?_assign_self _ _ _
  have hi := onConnectHandler_issued_for ord₁ ord₂ tr _ t h2 hg
  refine ⟨hg, GoMap.filter_key _ t h2 hg, ?_, hi, ?_⟩
  · intro t' ht'
    rw [SubscribeWithTracking_subs, GoMap.get?_assign_other _ _ _ _ ht',
      SubscribeWithTracking_subs, GoMap.get?_assign_other _ _ _ _ ht']
  · intro hne q hmem
    have : (t, q, h1) ∈ (issued (SubscribeWithTracking tr
        (SubscribeWithTracking tr c t q1 h1) t q2 h2)
        (onConnectHandler ord₁ ord₂ tr (SubscribeWithTracking tr
          (SubscribeWithTracking tr c t q1 h1) t q2 h2))).filter (fun x => x.1 == t) :=
      List.mem_filter.2 ⟨hmem, by simp⟩
    rw [hi] at this
    simp at this
    exact hne this.2

theorem C4_last_writer_wins_witness :
    ("first" : String) ≠ "second" ∧
    ∀ q, ("a/1", q, "first") ∉
        issued (SubscribeWithTracking (H := String) ⟨fun _ => ⟨true, none⟩, fun _ _ _ _ => ⟨true, some "down"⟩⟩
          (SubscribeWithTracking ⟨fun _ => ⟨true, none⟩, fun _ _ _ _ => ⟨true, some "down"⟩⟩
            (newClient []) "a/1" 1 "first") "a/1" 2 "second")
          (onConnectHandler (RangeOrder.inOrder String) (RangeOrder.reversed String)
            ⟨fun _ => ⟨true, none⟩, fun _ _ _ _ => ⟨true, some "down"⟩⟩
            (SubscribeWithTracking ⟨fun _ => ⟨true, none⟩, fun _ _ _ _ => ⟨true, some "down"⟩⟩
              (SubscribeWithTracking ⟨fun _ => ⟨true, none⟩, fun _ _ _ _ => ⟨true, some "down"⟩⟩
                (newClient []) "a/1" 1 "first") "a/1" 2 "second")) :=
  ⟨by decide,
    (C4_last_writer_wins (RangeOrder.inOrder String) (RangeOrder.reversed String)
      ⟨fun _ => ⟨true, none⟩, fun _ _ _ _ => ⟨true, some "down"⟩⟩
      (newClient []) "a/1" 1 2 "first" "second").2.2.2.2 (by decide)⟩

/-- Claim C5.  `SubscribeWithTracking` stores the entry (inside the critical
section) before it issues the transport `Subscribe` call; whatever token the
transport returns, the entry is in the registry afterwards; the method has no
error result.  After any further registrations, one run of the on-connect
handler still issues a `Subscribe` call for the topic. -/
theorem C5_record_before_subscribe (ord₁ ord₂ : RangeOrder H) (tr tr' : Transport H)
    (c : Client H) (topic : String) (qos : Byte) (handler : H)
    (more : List (String × Byte × H)) :
    emitted c (SubscribeWithTracking tr c topic qos handler) =
        [Event.lock, Event.store topic handler, Event.unlock,
          Event.subscribe topic qos handler,
          outcomeEvent (tr.Subscribe (record c topic handler).trace topic qos handler) topic] ∧
      (record c topic handler).subs.get? topic = some handler ∧
      (SubscribeWithTracking tr c topic qos handler).subs.get? topic = some handler ∧
      (issued (SubscribeWithTracking tr c topic qos handler)
        (onConnectHandler ord₁ ord₂ tr' (SubscribeWithTracking tr c topic qos handler))).filter
          (fun x => x.1 == topic) = [(topic, (0 : Byte), handler)] ∧
      topic ∈ (issued (subscribeAll tr' (SubscribeWithTracking tr c topic qos handler) more)
        (onConnectHandler ord₁ ord₂ tr'
          (subscribeAll tr' (SubscribeWithTracking tr c topic qos handler) more))).map
            (fun x => x.1) := by
  have hg : (SubscribeWithTracking tr c topic qos handler).subs.get? topic = some handler := by
    rw [SubscribeWithTracking_subs]; exact GoMap.get?_assign_self _ _ _
  refine ⟨?_, GoMap.get?_assign_self _ _ _, hg, ?_, ?_⟩
  · exact emitted_of_trace c _ _ (SubscribeWithTracking_trace tr c topic qos handler)
  · exact onConnectHandler_issued_for ord₁ ord₂ tr' _ topic handler hg
  · rw [(onConnectHandler_issued_topics ord₁ ord₂ tr' _).mem_iff]
    exact subscribeAll_keys_mono tr' more _ topic (GoMap.mem_keys_of_get? _ topic handler hg)

/-- Claim C6.  In one run of the on-connect handler, whatever the transport
answers: when every `Subscribe` for a registered topic `A` fails, the failure
is logged, and every registered topic `B` (other than `A` in particular) still
gets exactly one `Subscribe` call in the same run, with its handler; the
registry is the same after the run. -/
theorem C6_failure_does_not_abort_replay (ord₁ ord₂ : RangeOrder H) (tr : Transport H)
    (c : Client H) (A B : String) (hA hB : H) (err : String)
    (hregA : c.subs.get? A = some hA) (hregB : c.subs.get? B = some hB)
    (hfail : ∀ past q h, tr.Subscribe past A q h = ⟨true, some err⟩) :
    Event.logSubscribeFailed A err ∈ emitted c (onConnectHandler ord₁ ord₂ tr c) ∧
      (issued c (onConnectHandler ord₁ ord₂ tr c)).filter (fun x => x.1 == A) =
        [(A, (0 : Byte), hA)] ∧
      (issued c (onConnectHandler ord₁ ord₂ tr c)).filter (fun x => x.1 == B) =
        [(B, (0 : Byte), hB)] ∧
      ((issued c (onConnectHandler ord₁ ord₂ tr c)).map (fun x => x.1)).Perm c.subs.keys ∧
      (onConnectHandler ord₁ ord₂ tr c).subs = c.subs := by
  obtain ⟨ev, h1, h2, _, _, _, h6⟩ := onConnectHandler_run ord₁ ord₂ tr c
  refine ⟨?_, onConnectHandler_issued_for ord₁ ord₂ tr c A hA hregA,
    onConnectHandler_issued_for ord₁ ord₂ tr c B hB hregB,
    onConnectHandler_issued_topics ord₁ ord₂ tr c, h2⟩
  rw [emitted_of_trace c _ _ h1]
  have hmem : (A, hA) ∈ c.subs.entries := by
    have : (A, hA) ∈ c.subs.entries.filter (fun e => e.1 == A) := by
      rw [GoMap.filter_key c.subs A hA hregA]; simp
    exact (List.mem_filter.1 this).1
  exact List.mem_cons_of_mem _ (List.mem_cons_of_mem _ (h6 (A, hA) hmem err hfail))

theorem C6_failure_does_not_abort_replay_witness :
    Event.logSubscribeFailed "a/1" "refused" ∈
        emitted (subscribeAll (H := Unit)
            ⟨fun _ => ⟨true, none⟩, fun _ t _ _ => if t = "a/1" then ⟨true, some "refused"⟩ else ⟨true, none⟩⟩
            (newClient []) [("a/1", 1, ()), ("a/2", 2, ())])
          (onConnectHandler (RangeOrder.inOrder Unit) (RangeOrder.inOrder Unit)
            ⟨fun _ => ⟨true, none⟩, fun _ t _ _ => if t = "a/1" then ⟨true, some "refused"⟩ else ⟨true, none⟩⟩
            (subscribeAll
              ⟨fun _ => ⟨true, none⟩, fun _ t _ _ => if t = "a/1" then ⟨true, some "refused"⟩ else ⟨true, none⟩⟩
              (newClient []) [("a/1", 1, ()), ("a/2", 2, ())])) ∧
      (issued (subscribeAll (H := Unit)
            ⟨fun _ => ⟨true, none⟩, fun _ t _ _ => if t = "a/1" then ⟨true, some "refused"⟩ else ⟨true, none⟩⟩
            (newClient []) [("a/1", 1, ()), ("a/2", 2, ())])
          (onConnectHandler (RangeOrder.inOrder Unit) (RangeOrder.inOrder Unit)
            ⟨fun _ => ⟨true, none⟩, fun _ t _ _ => if t = "a/1" then ⟨true, some "refused"⟩ else ⟨true, none⟩⟩
            (subscribeAll
              ⟨fun _ => ⟨true, none⟩, fun _ t _ _ => if t = "a/1" then ⟨true, some "refused"⟩ else ⟨true, none⟩⟩
              (newClient []) [("a/1", 1, ()), ("a/2", 2, ())]))).filter (fun x => x.1 == "a/2") =
        [("a/2", (0 : Byte), ())] :=
  have h := C6_failure_does_not_abort_replay (RangeOrder.inOrder Unit) (RangeOrder.inOrder Unit)
    ⟨fun _ => ⟨true, none⟩, fun _ t _ _ => if t = "a/1" then ⟨true, some "refused"⟩ else ⟨true, none⟩⟩
    (subscribeAll
      ⟨fun _ => ⟨true, none⟩, fun _ t _ _ => if t = "a/1" then ⟨true, some "refused"⟩ else ⟨true, none⟩⟩
      (newClient []) [("a/1", 1, ()), ("a/2", 2, ())])
    "a/1" "a/2" () () "refused" (by decide) (by decide) (fun _ _ _ => by simp)
  ⟨h.1, h.2.2.1⟩

/-- Records made by another goroutine add `lock`, `store`, `unlock` events only:
no transport call. -/
theorem recordAll_run (rs : List (String × H)) : ∀ c : Client H,
    ∃ ev, (recordAll c rs).trace = c.trace ++ ev ∧ subscribes ev = [] ∧
      (recordAll c rs).subs = rs.foldl (fun m e => m.assign e.1 e.2) c.subs := by
  induction rs with
  | nil => intro c; exact ⟨[], by simp [recordAll], rfl, rfl⟩
  | cons r rest ih =>
    intro c
    obtain ⟨ev, h1, h2, h3⟩ := ih (record c r.1 r.2)
    refine ⟨[Event.lock, Event.store r.1 r.2, Event.unlock] ++ ev, ?_, ?_, ?_⟩
    · show (recordAll (record c r.1 r.2) rest).trace = _
      rw [h1]; simp [record]
    · rw [subscribes_append, h2]; rfl
    · show (recordAll (record c r.1 r.2) rest).subs = _
      rw [h3]; rfl

/-- The subscribing loop amid records of another goroutine: its `Subscribe`
calls are those of the entries it was given, and the registry has received
every record. -/
theorem replayAmid_run (tr : Transport H) (env : Nat → List (String × H))
    (l : List (String × H)) : ∀ (i : Nat) (c : Client H),
    ∃ ev, (replayAmid tr env l i c).trace = c.trace ++ ev ∧
      subscribes ev = l.map (fun e => (e.1, (0 : Byte), e.2)) ∧
      (replayAmid tr env l i c).subs =
        (((List.range (l.length + 1)).map (fun j => env (i + j))).flatten).foldl
          (fun m e => m.assign e.1 e.2) c.subs := by
  induction l with
  | nil =>
    intro i c
    obtain ⟨ev, h1, h2, h3⟩ := recordAll_run (env i) c
    exact ⟨ev, h1, h2, by simpa [replayAmid, List.range_succ] using h3⟩
  | cons e rest ih =>
    intro i c
    obtain ⟨ev₁, h1, h2, h3⟩ := recordAll_run (env i) c
    obtain ⟨ev₂, k1, k2, k3⟩ := ih (i + 1) (subscribeAndLog tr (recordAll c (env i)) e.1 0 e.2)
    refine ⟨ev₁ ++ [Event.subscribe e.1 0 e.2,
      outcomeEvent (tr.Subscribe (recordAll c (env i)).trace e.1 0 e.2) e.1] ++ ev₂, ?_, ?_, ?_⟩
    · show (replayAmid tr env rest (i + 1) _).trace = _
      rw [k1, subscribeAndLog_trace, h1]; simp
    · rw [subscribes_append, subscribes_append, h2, k2]
      have := subscribes_outcomeEvent (H := H)
        (tr.Subscribe (recordAll c (env i)).trace e.1 0 e.2) e.1
      simp [subscribes] at this ⊢
      simp [subscribes, this]
    · show (replayAmid tr env rest (i + 1) _).subs = _
      have hr : ((List.range (rest.length + 1 + 1)).map (fun j => env (i + j))).flatten =
          env i ++ ((List.range (rest.length + 1)).map (fun j => env (i + 1 + j))).flatten := by
        rw [List.range_succ_eq_map (rest.length + 1)]
        simp [Function.comp_def, Nat.add_assoc, Nat.add_comm 1]
      rw [k3, subscribeAndLog_subs, h3]
      show _ = List.foldl _ c.subs
        ((List.range (rest.length + 1 + 1)).map (fun j => env (i + j))).flatten
      rw [hr, List.foldl_append]

theorem onConnectHandlerAmid_quiet (ord₁ ord₂ : RangeOrder H) (tr : Transport H)
    (c : Client H) :
    onConnectHandlerAmid ord₁ ord₂ tr (fun _ => []) c = onConnectHandler ord₁ ord₂ tr c := by
  have h : ∀ (l : List (String × H)) (i : Nat) (c : Client H),
      replayAmid tr (fun _ => []) l i c =
        l.foldl (fun c e => subscribeAndLog tr c e.1 0 e.2) c := by
    intro l
    induction l with
    | nil => intro i c; rfl
    | cons e rest ih => intro i c; simp [replayAmid, ih, recordAll]
  exact h _ _ _

/-- Claim C7.  The mutex is never held across a transport call.
`SubscribeWithTracking` emits `lock`, `store`, `unlock` and only then its
`Subscribe` call.  The on-connect handler emits `lock`, `unlock` and then its
replay, which never takes the mutex again; what it iterates is a copy with the
entries the registry had under the lock.  Records another goroutine makes after
the handler released the mutex reach the registry, and leave the `Subscribe`
calls of that run equal to those of an undisturbed run. -/
theorem C7_lock_not_held_across_calls (ord₁ ord₂ : RangeOrder H) (tr : Transport H)
    (c : Client H) (topic : String) (qos : Byte) (callback : H)
    (env : Nat → List (String × H)) :
    (emitted c (SubscribeWithTracking tr c topic qos callback) =
        [Event.lock, Event.store topic callback, Event.unlock,
          Event.subscribe topic qos callback,
          outcomeEvent (tr.Subscribe (record c topic callback).trace topic qos callback)
            topic] ∧
      callsOutsideLock false (emitted c (SubscribeWithTracking tr c topic qos callback))
        = true ∧
      lockHeld false [Event.lock, Event.store topic callback, Event.unlock] = false) ∧
    (∃ ev, emitted c (onConnectHandler ord₁ ord₂ tr c) = Event.lock :: Event.unlock :: ev ∧
      (∀ x ∈ ev, x ≠ Event.lock ∧ x ≠ Event.unlock) ∧
      callsOutsideLock false (emitted c (onConnectHandler ord₁ ord₂ tr c)) = true ∧
      lockHeld false ([Event.lock, Event.unlock] : List (Event H)) = false) ∧
    (emitted c (snapshot ord₁ c).1 = [Event.lock, Event.unlock] ∧
      (snapshot ord₁ c).2.entries.Perm c.subs.entries ∧
      subscribes (emitted (snapshot ord₁ c).1 (replay ord₂ tr (snapshot ord₁ c).1
        (snapshot ord₁ c).2)) =
          (ord₂.visit (snapshot ord₁ c).2).map (fun e => (e.1, (0 : Byte), e.2))) ∧
    (issued c (onConnectHandlerAmid ord₁ ord₂ tr env c) =
        issued c (onConnectHandler ord₁ ord₂ tr c) ∧
      (onConnectHandlerAmid ord₁ ord₂ tr env c).subs =
        (((List.range ((ord₂.visit (snapshot ord₁ c).2).length + 1)).map env).flatten).foldl
          (fun m e => m.assign e.1 e.2) c.subs) := by
  obtain ⟨ev, h1, _, h3, h4, h5, _⟩ := onConnectHandler_run ord₁ ord₂ tr c
  obtain ⟨ev', k1, k2, k3⟩ := replayAmid_run tr env (ord₂.visit (snapshot ord₁ c).2) 0
    (snapshot ord₁ c).1
  have hswt := emitted_of_trace c _ _ (SubscribeWithTracking_trace tr c topic qos callback)
  have hout : ∀ tok : Token,
      callsOutsideLock false [(outcomeEvent tok topic : Event H)] = true := by
    intro tok; unfold outcomeEvent; split <;> rfl
  refine ⟨⟨hswt, ?_, rfl⟩, ⟨ev, emitted_of_trace c _ _ h1, h4, ?_, rfl⟩,
    ⟨?_, snapshot_perm ord₁ c, ?_⟩, ?_, ?_⟩
  · rw [hswt]
    simp [callsOutsideLock, hout]
  · rw [emitted_of_trace c _ _ h1]
    simpa [callsOutsideLock] using h5
  · exact emitted_of_trace c _ _ rfl
  · obtain ⟨ev₂, r1, _, r3, _, _, _⟩ :=
      replayLoop tr (ord₂.visit (snapshot ord₁ c).2) (snapshot ord₁ c).1
    have : emitted (snapshot ord₁ c).1 (replay ord₂ tr (snapshot ord₁ c).1
        (snapshot ord₁ c).2) = ev₂ := emitted_of_trace _ _ _ r1
    rw [this, r3]
  · have e1 : issued c (onConnectHandlerAmid ord₁ ord₂ tr env c) = subscribes ev' := by
      unfold issued
      have : (onConnectHandlerAmid ord₁ ord₂ tr env c).trace =
          c.trace ++ (Event.lock :: Event.unlock :: ev') := by
        unfold onConnectHandlerAmid
        rw [k1, snapshot_client]; simp
      rw [emitted_of_trace c _ _ this]
      rfl
    have e2 : issued c (onConnectHandler ord₁ ord₂ tr c) = subscribes ev := by
      unfold issued
      rw [emitted_of_trace c _ _ h1]
      rfl
    rw [e1, e2, k2, h3]
  · unfold onConnectHandlerAmid
    rw [k3, snapshot_client]
    simp

/-- Claim C8.  Whatever the state of the client, `Disconnect` issues exactly
one disconnect request to the transport, with a quiesce time of 250
milliseconds, logs, and leaves the registry as it was. -/
theorem C8_disconnect (tc : Client H) :
    emitted tc (Disconnect tc) = [Event.disconnect 250, Event.logDisconnected] ∧
      (Disconnect tc).subs = tc.subs := by
  refine ⟨emitted_of_trace tc _ _ rfl, rfl⟩

end Broker

/-! ## Properties of the JSON encoding of validation errors -/

namespace Json

theorem insertEntry_perm (e : GoString × GoString) (l : List (GoString × GoString)) :
    (insertEntry e l).Perm (e :: l) := by
  induction l with
  | nil => exact List.Perm.refl _
  | cons x rest ih =>
    unfold insertEntry
    split
    · exact List.Perm.refl _
    · exact (List.Perm.cons x ih).trans (List.Perm.swap e x rest)

theorem sortEntries_perm (l : List (GoString × GoString)) : (sortEntries l).Perm l := by
  induction l with
  | nil => exact List.Perm.refl _
  | cons e rest ih => exact (insertEntry_perm e _).trans (List.Perm.cons e ih)

/-- Looking up the text of a well-formed name among the texts of entries with
well-formed names finds the text of the value the name has among the
entries. -/
theorem find_toText (l : List (GoString × GoString)) (hl : ∀ e ∈ l, e.1.valid = true)
    (name : GoString) (hn : name.valid = true) :
    ((l.map (fun e => (e.1.toText, e.2.toText))).find? (fun e => e.1 == name.toText)).map
        Prod.snd =
      ((l.find? (fun e => e.1 == name)).map Prod.snd).map GoString.toText := by
  induction l with
  | nil => rfl
  | cons e rest ih =>
    have he := hl e (List.mem_cons_self _ _)
    have ih' := ih (fun x hx => hl x (List.mem_cons_of_mem _ hx))
    by_cases hk : e.1 = name
    · simp [List.find?_cons, hk]
    · have hk' : ¬ e.1.toText = name.toText := fun h => hk (GoString.toText_inj _ _ he hn h)
      simpa [List.find?_cons, hk, hk'] using ih'

end Json

namespace Validator

open Json

variable {E : Type} [IsError E]

omit [IsError E] in
/-- A run of `Field` calls on a map that is not nil does not panic. -/
theorem fieldsFrom_some (calls : List (GoString × Option E)) :
    ∀ m : GoMap (Option E) GoString,
      fieldsFrom (some m) calls =
        Except.ok (some (calls.foldl (fun m c => m.assign c.1 c.2) m)) := by
  induction calls with
  | nil => intro m; rfl
  | cons c rest ih => intro m; simp [fieldsFrom, ValidationErrors.Field, ih]

/-- The loop of `MarshalJSON` over entries none of which is nil does not
panic. -/
theorem collectMessages_some (l : List (GoString × E)) :
    ∀ m : GoMap GoString GoString,
      collectMessages (l.map (fun c => (c.1, some c.2))) m =
        Except.ok (l.foldl (fun m c => m.assign c.1 (IsError.Error c.2)) m) := by
  induction l with
  | nil => intro m; rfl
  | cons c rest ih => intro m; simp [collectMessages, ih]

omit [IsError E] in
theorem exists_map_some (l : List (GoString × Option E))
    (h : ∀ x ∈ l, ∃ c : GoString × E, x = (c.1, some c.2)) :
    ∃ l' : List (GoString × E), l = l'.map (fun c => (c.1, some c.2)) := by
  induction l with
  | nil => exact ⟨[], rfl⟩
  | cons x rest ih =>
    obtain ⟨c, hc⟩ := h x (List.mem_cons_self _ _)
    obtain ⟨l', hl'⟩ := ih (fun y hy => h y (List.mem_cons_of_mem _ hy))
    exact ⟨c :: l', by simp [hc, hl']⟩

/-- The map `errorMessages` of a `ValidationErrors` built by `Field` calls with
non-nil errors: the loop does not panic, and the map holds, for exactly the
names added, the message of the last error added. -/
theorem errorMessages_fields (ord : RangeOrder (Option E) GoString)
    (calls : List (GoString × E)) :
    ∃ M : GoMap GoString GoString,
      errorMessages ord (some ((calls.map (fun c => (c.1, some c.2))).foldl
        (fun m c => m.assign c.1 c.2) GoMap.empty)) = Except.ok M ∧
      (∀ name, M.get? name = lastMessage calls name) ∧
      (∀ e ∈ M.entries, ∃ c ∈ calls, e = (c.1, IsError.Error c.2)) ∧
      (∀ name, name ∈ M.keys ↔ name ∈ calls.map Prod.fst) := by
  let lifted := calls.map (fun c : GoString × E => (c.1, some c.2))
  let ve : GoMap (Option E) GoString :=
    lifted.foldl (fun m c => m.assign c.1 c.2) GoMap.empty
  have hperm := ord.perm ve
  have hve : ∀ x ∈ ve.entries, x ∈ lifted := by
    intro x hx
    rcases GoMap.mem_entries_foldl_assign lifted GoMap.empty x hx with h | h
    · simp [GoMap.empty] at h
    · exact h
  have hall : ∀ x ∈ ord.visit ve, ∃ c : GoString × E, x = (c.1, some c.2) := by
    intro x hx
    obtain ⟨c, _, hc⟩ := List.mem_map.1 (hve x (hperm.mem_iff.1 hx))
    exact ⟨c, hc.symm⟩
  obtain ⟨l', hl'⟩ := exists_map_some (ord.visit ve) hall
  have hkeys : (ord.visit ve).map Prod.fst = l'.map Prod.fst := by
    rw [hl']; simp [Function.comp_def]
  have hnd : (l'.map Prod.fst).Nodup := by
    rw [← hkeys]
    exact ((hperm.map Prod.fst).nodup_iff).2 ve.nodup
  have hent : (l'.foldl (fun m c => m.assign c.1 (IsError.Error c.2))
      (GoMap.empty : GoMap GoString GoString)).entries =
      l'.map (fun c => (c.1, IsError.Error c.2)) := by
    have := GoMap.foldl_assign_entries (l'.map (fun c => (c.1, IsError.Error c.2)))
      (GoMap.empty : GoMap GoString GoString)
      (by simpa [Function.comp_def] using hnd)
      (by intro k _; simp [GoMap.keys, GoMap.empty])
    simpa [List.foldl_map, GoMap.empty] using this
  have hmem : ∀ c, c ∈ l' → c ∈ calls := by
    intro c hc
    have h1 : (c.1, some c.2) ∈ ord.visit ve := by
      rw [hl']; exact List.mem_map.2 ⟨c, hc, rfl⟩
    obtain ⟨c', hc', he⟩ := List.mem_map.1 (hve _ (hperm.mem_iff.1 h1))
    have : c' = c := by
      cases c; cases c'
      simp only [Prod.mk.injEq, Option.some.injEq] at he
      simp [he.1, he.2]
    exact this ▸ hc'
  refine ⟨l'.foldl (fun m c => m.assign c.1 (IsError.Error c.2)) GoMap.empty, ?_, ?_, ?_, ?_⟩
  · show collectMessages (ord.visit ve) GoMap.empty = _
    rw [hl', collectMessages_some]
  · intro name
    unfold GoMap.get?
    rw [hent, GoMap.find_key_map]
    have h1 : ((ord.visit ve).find? (fun e => e.1 == name)).map Prod.snd =
        ((l'.find? (fun e => e.1 == name)).map Prod.snd).map some := by
      rw [hl']; exact GoMap.find_key_map some l' name
    have h2 : ((ord.visit ve).find? (fun e => e.1 == name)).map Prod.snd = ve.get? name :=
      GoMap.find_key_perm _ _ hperm (((hperm.map Prod.fst).nodup_iff).2 ve.nodup) name
    have h3 : ve.get? name =
        ((calls.filter (fun c => c.1 == name)).getLast?).map (fun c => some c.2) := by
      show (lifted.foldl (fun m c => m.assign c.1 c.2) GoMap.empty).get? name = _
      rw [GoMap.get?_foldl_assign]
      have : lifted.filter (fun c => c.1 == name) =
          (calls.filter (fun c => c.1 == name)).map (fun c => (c.1, some c.2)) := by
        simp [lifted, List.filter_map, Function.comp_def]
      rw [this, List.getLast?_map]
      cases (calls.filter (fun c => c.1 == name)).getLast? <;> rfl
    have h4 : (l'.find? (fun e => e.1 == name)).map Prod.snd =
        ((calls.filter (fun c => c.1 == name)).getLast?).map (fun c => c.2) := by
      have := h1.symm.trans (h2.trans h3)
      cases hx : (l'.find? (fun e => e.1 == name)).map Prod.snd <;>
        cases hy : (calls.filter (fun c => c.1 == name)).getLast? <;>
        simp [hx, hy] at this ⊢
      exact this
    rw [h4]
    unfold lastMessage
    cases (calls.filter (fun c => c.1 == name)).getLast? <;> rfl
  · intro e he
    rw [hent] at he
    obtain ⟨c, hc, rfl⟩ := List.mem_map.1 he
    exact ⟨c, hmem c hc, rfl⟩
  · intro name
    have h1 : GoMap.keys (l'.foldl (fun m c => m.assign c.1 (IsError.Error c.2))
        (GoMap.empty : GoMap GoString GoString)) = l'.map Prod.fst := by
      unfold GoMap.keys
      rw [hent]; simp [Function.comp_def]
    rw [h1, ← hkeys, (hperm.map Prod.fst).mem_iff]
    show name ∈ ve.keys ↔ _
    rw [GoMap.mem_keys_foldl_assign]
    simp [GoMap.keys, GoMap.empty, lifted, Function.comp_def]

/-- Claim C10, counterexample.  After `Field("Name", nil)` on `New()`,
`MarshalJSON` panics at `err.Error()` and encodes nothing.  After
`Field("\xff", a)` and `Field("\xfe", b)`, two names that are not UTF-8,
`MarshalJSON` writes an object in which both names read U+FFFD, and decoding
it gives a map with the single key U+FFFD: neither the key set nor the decoded
map is that of the names added. -/
theorem C10_nil_error_panics_invalid_names_collide :
    marshalFields (RangeOrder.inOrder (Option FieldError) GoString) [("Name", none)] =
        Except.error Panic.nilDereference ∧
      marshalFields (RangeOrder.inOrder (Option FieldError) GoString)
          [(⟨[255]⟩, NewFieldError "a"), (⟨[254]⟩, NewFieldError "b")] =
        Except.ok (Except.ok (JsonDoc.object [("\uFFFD", "b"), ("\uFFFD", "a")])) ∧
      unmarshalStringMap (JsonDoc.object [("\uFFFD", "b"), ("\uFFFD", "a")]) =
        Except.ok (some (GoMap.assign (GoMap.empty : GoMap GoString GoString) "\uFFFD" "a")) ∧
      (⟨[255]⟩ : GoString) ≠ "\uFFFD" ∧ (⟨[254]⟩ : GoString) ≠ "\uFFFD" :=
  ⟨rfl, rfl, rfl, by decide, by decide⟩

/-- Claim C10, amended.  For a `ValidationErrors` built from `New()` by any run
of `Field(name, err)` calls whose errors are not nil and whose names and
messages are well-formed UTF-8, `MarshalJSON` returns a JSON object whose keys
are pairwise distinct and are exactly the names added, and whose value for
each name is the message of the last error added for it; decoding that object
into a `map[string]string` gives the map with exactly those names and
messages. -/
theorem C10_marshal_json_roundtrip (ord : RangeOrder (Option E) GoString)
    (calls : List (GoString × E))
    (hnames : ∀ c ∈ calls, c.1.valid = true)
    (hmsgs : ∀ c ∈ calls, (IsError.Error c.2).valid = true) :
    ∃ members decoded,
      marshalFields ord (calls.map (fun c => (c.1, some c.2))) =
        Except.ok (Except.ok (JsonDoc.object members)) ∧
      (members.map Prod.fst).Nodup ∧
      (∀ key, key ∈ members.map Prod.fst ↔ ∃ c ∈ calls, c.1.toText = key) ∧
      (∀ name : GoString, name.valid = true →
        member? (JsonDoc.object members) name.toText =
          (lastMessage calls name).map GoString.toText) ∧
      unmarshalStringMap (JsonDoc.object members) = Except.ok (some decoded) ∧
      (∀ name, name ∈ decoded.keys ↔ name ∈ calls.map Prod.fst) ∧
      (∀ name, decoded.get? name = lastMessage calls name) := by
  obtain ⟨M, hM, hget, hentries, hkeys⟩ := errorMessages_fields ord calls
  have hperm := sortEntries_perm M.entries
  have hnd : ((sortEntries M.entries).map Prod.fst).Nodup :=
    ((hperm.map Prod.fst).nodup_iff).2 M.nodup
  have hvalid : ∀ e ∈ sortEntries M.entries, e.1.valid = true ∧ e.2.valid = true := by
    intro e he
    obtain ⟨c, hc, rfl⟩ := hentries e (hperm.mem_iff.1 he)
    exact ⟨hnames c hc, hmsgs c hc⟩
  have hback : ((sortEntries M.entries).map (fun e => (e.1.toText, e.2.toText))).map
      (fun e => (GoString.ofString e.1, GoString.ofString e.2)) = sortEntries M.entries := by
    rw [List.map_map]
    conv_rhs => rw [← List.map_id (sortEntries M.entries)]
    apply List.map_congr_left
    intro e he
    obtain ⟨h1, h2⟩ := hvalid e he
    simp [GoString.ofString_toText, h1, h2]
  have hdec : (((sortEntries M.entries).map (fun e => (e.1.toText, e.2.toText))).foldl
      (fun m e => m.assign (GoString.ofString e.1) (GoString.ofString e.2))
      (GoMap.empty : GoMap GoString GoString)).entries = sortEntries M.entries := by
    have h1 := GoMap.foldl_assign_entries (sortEntries M.entries)
      (GoMap.empty : GoMap GoString GoString) hnd
      (by intro k _; simp [GoMap.keys, GoMap.empty])
    have h2 : ((sortEntries M.entries).map (fun e => (e.1.toText, e.2.toText))).foldl
        (fun m e => m.assign (GoString.ofString e.1) (GoString.ofString e.2))
        (GoMap.empty : GoMap GoString GoString) =
        (((sortEntries M.entries).map (fun e => (e.1.toText, e.2.toText))).map
          (fun e => (GoString.ofString e.1, GoString.ofString e.2))).foldl
          (fun m e => m.assign e.1 e.2) GoMap.empty := by
      simp only [List.foldl_map]
    rw [h2, hback, h1]
    simp [GoMap.empty]
  have hfind : ∀ name, ((sortEntries M.entries).find? (fun e => e.1 == name)).map Prod.snd =
      lastMessage calls name := by
    intro name
    rw [GoMap.find_key_perm _ _ hperm hnd name]
    exact hget name
  have hndm : (((sortEntries M.entries).map (fun e => (e.1.toText, e.2.toText))).map
      Prod.fst).Nodup := by
    rw [List.map_map]
    have : (Prod.fst ∘ fun e : GoString × GoString => (e.1.toText, e.2.toText)) =
        GoString.toText ∘ Prod.fst := rfl
    rw [this, ← List.map_map]
    refine List.Nodup.map_on ?_ hnd
    intro x hx y hy hxy
    obtain ⟨ex, hex, rfl⟩ := List.mem_map.1 hx
    obtain ⟨ey, hey, rfl⟩ := List.mem_map.1 hy
    exact GoString.toText_inj _ _ (hvalid ex hex).1 (hvalid ey hey).1 hxy
  refine ⟨(sortEntries M.entries).map (fun e => (e.1.toText, e.2.toText)), _, ?_, hndm, ?_,
    ?_, rfl, ?_, ?_⟩
  · unfold marshalFields fieldAll New
    rw [fieldsFrom_some]
    simp only [ValidationErrors.MarshalJSON, hM, marshalStringMap]
  · intro key
    constructor
    · intro hk
      obtain ⟨x, hx, rfl⟩ := List.mem_map.1 hk
      obtain ⟨e, he, rfl⟩ := List.mem_map.1 hx
      obtain ⟨c, hc, rfl⟩ := hentries e (hperm.mem_iff.1 he)
      exact ⟨c, hc, rfl⟩
    · rintro ⟨c, hc, rfl⟩
      have h1 : c.1 ∈ M.keys := (hkeys c.1).2 (List.mem_map_of_mem Prod.fst hc)
      obtain ⟨e, he, hfst⟩ := List.mem_map.1 h1
      exact List.mem_map.2 ⟨(e.1.toText, e.2.toText),
        List.mem_map.2 ⟨e, hperm.mem_iff.2 he, rfl⟩, by simp [hfst]⟩
  · intro name hname
    unfold member?
    simp only
    rw [GoMap.find_key_perm _ _ (List.reverse_perm _)
      (((List.reverse_perm _).map Prod.fst).nodup_iff.2 hndm) name.toText]
    rw [find_toText _ (fun e he => (hvalid e he).1) name hname, hfind]
  · intro name
    unfold GoMap.keys
    rw [hdec, (hperm.map Prod.fst).mem_iff]
    exact hkeys name
  · intro name
    unfold GoMap.get?
    rw [hdec]
    exact hfind name

theorem C10_marshal_json_roundtrip_witness :
    (∀ c ∈ testFields, c.1.valid = true) ∧
    (∀ c ∈ testFields, (IsError.Error c.2).valid = true) ∧
    ∃ members decoded,
      marshalFields (RangeOrder.reversed (Option FieldError) GoString)
        (testFields.map (fun c => (c.1, some c.2))) =
        Except.ok (Except.ok (JsonDoc.object members)) ∧
      (members.map Prod.fst).Nodup ∧
      member? (JsonDoc.object members) "Username" = some "Username is required" ∧
      unmarshalStringMap (JsonDoc.object members) = Except.ok (some decoded) ∧
      decoded.get? "Password" = some "Password must be at least 8 characters" :=
  ⟨by decide, by decide,
    match C10_marshal_json_roundtrip (RangeOrder.reversed (Option FieldError) GoString)
      testFields (by decide) (by decide) with
    | ⟨members, decoded, h1, h2, _, h4, h5, _, h7⟩ =>
      ⟨members, decoded, h1, h2,
        (show member? (JsonDoc.object members) (GoString.toText "Username") = _ from
          (h4 "Username" (by decide)).trans (by decide)),
        h5, (h7 "Password").trans (by decide)⟩⟩

end Validator

/-! ## Properties of the validation-error response -/

namespace Response

open Validator Json

variable {E : Type} [IsError E]

/-- An error that is itself a `ValidationErrors` gets status 400 and the JSON
content type; the body is what its `MarshalJSON` returns, and a panic of
`MarshalJSON` leaves the handler after the status was written. -/
theorem HandleValidationError_direct (ord : RangeOrder (Option E) GoString)
    (w : List (Call E)) (ve : ValidationErrors E) :
    HandleValidationError ord w (some (Err.validationErrors ve)) =
      w ++ [Call.setHeader "Content-Type" "application/json", Call.writeHeader 400] ++
        (match ValidationErrors.MarshalJSON ord ve with
          | Except.ok (Except.ok doc) => [Call.write doc]
          | Except.ok (Except.error reason) => [Call.logEncodeFailed reason]
          | Except.error p => [Call.panic p]) := by
  simp only [HandleValidationError, errorsAs, Err.asValidationErrors, HandleJSONWithStatus,
    encodeOrLog, Body.ofError, jsonMarshal, StatusBadRequest]
  cases ValidationErrors.MarshalJSON ord ve with
  | error p => simp
  | ok r => cases r <;> simp

/-- An error with no `ValidationErrors` in its chain, `nil` included, gets
status 500 and nothing else is sent. -/
theorem HandleValidationError_other (ord : RangeOrder (Option E) GoString)
    (w : List (Call E)) (err : Option (Err E)) (h : errorsAs err = none) :
    HandleValidationError ord w err = w ++ [Call.logError err, Call.writeHeader 500] := by
  simp [HandleValidationError, h, HandleServerError, HandleStatus, StatusInternalServerError]

theorem HandleValidationError_other_witness :
    HandleValidationError (RangeOrder.inOrder (Option FieldError) GoString) []
        (some (Err.errorString "regular error")) =
      [] ++ [Call.logError (some (Err.errorString "regular error")), Call.writeHeader 500] :=
  HandleValidationError_other (RangeOrder.inOrder (Option FieldError) GoString) []
    (some (Err.errorString "regular error")) rfl

/-- Claim C9, at the failing input.  For `fmt.Errorf("save user: %w", ve)` with
`ve` holding "Name is required" for `Name`, `errors.As` finds `ve`, so the
response has the single status 400 and the JSON content type, but the body is
the encoding of the wrapping error, the empty object, not the object that maps
`Name` to its message, which is what `ve` itself is answered with. -/
theorem C9_wrapped_validation_error_body (ord : RangeOrder (Option FieldError) GoString) :
    errorsAs (some (Err.wrapError "save user: Name: Name is required\n"
        (Err.validationErrors nameRequired))) = some nameRequired ∧
      HandleValidationError ord []
        (some (Err.wrapError "save user: Name: Name is required\n"
          (Err.validationErrors nameRequired))) =
        [Call.setHeader "Content-Type" "application/json", Call.writeHeader 400,
          Call.write (JsonDoc.object [])] ∧
      statuses (HandleValidationError ord []
        (some (Err.wrapError "save user: Name: Name is required\n"
          (Err.validationErrors nameRequired)))) = [400] ∧
      bodies (HandleValidationError ord []
        (some (Err.wrapError "save user: Name: Name is required\n"
          (Err.validationErrors nameRequired)))) = [JsonDoc.object []] ∧
      member? (JsonDoc.object []) "Name" = none ∧
      bodies (HandleValidationError ord [] (some (Err.validationErrors nameRequired))) =
        [JsonDoc.object [("Name", "Name is required")]] := by
  refine ⟨rfl, rfl, rfl, rfl, rfl, ?_⟩
  rw [HandleValidationError_direct]
  have hv : rangeEntries ord nameRequired =
      [((GoString.ofString "Name"), NewFieldError "Name is required")] := by
    have hp := ord.perm (GoMap.assign GoMap.empty (GoString.ofString "Name")
      (NewFieldError "Name is required"))
    exact List.perm_singleton.1 hp
  have hm : ValidationErrors.MarshalJSON ord nameRequired =
      Except.ok (Except.ok (JsonDoc.object [("Name", "Name is required")])) := by
    unfold ValidationErrors.MarshalJSON errorMessages
    rw [hv]
    rfl
  rw [hm]
  rfl

end Response

end Pkg
